import Mathlib

/-!
A verification development for a small CSV-backed relational database engine.
The Python source is embedded shallowly: strings are lists of characters,
fallible operations return Option, floats are modelled as exact rationals
(the binary floating-point approximation of the host language is abstracted
away; only finite decimal literals occur in the data files), and datetimes
are modelled at second resolution (no stored data uses sub-second values).
-/

set_option maxRecDepth 6000

abbrev Str := List Char

/-- The double-quote character, kept out of literals for readability. -/
def dquoteChar : Char := Char.ofNat 34

/-- The single-quote character. -/
def squoteChar : Char := Char.ofNat 39

/-- Whitespace characters stripped by the host language's str.strip(). -/
def isPySpace (c : Char) : Bool :=
  c == ' ' || c == '\t' || c == '\n' || c == '\r' || c == '\x0b' || c == '\x0c'

/-- str.lstrip(): drop leading whitespace. -/
def lstrip (s : Str) : Str := s.dropWhile isPySpace

/-- str.rstrip(): drop trailing whitespace. -/
def rstrip (s : Str) : Str := (s.reverse.dropWhile isPySpace).reverse

/-- str.strip(): drop whitespace on both ends. -/
def pystrip (s : Str) : Str := lstrip (rstrip s)

/-- str.strip(ch): drop the given character from both ends. -/
def pyStripChars (s : Str) (c : Char) : Str :=
  ((s.dropWhile (· == c)).reverse.dropWhile (· == c)).reverse

/-- Lower-casing of a single ASCII character, as str.lower() does on the
identifiers and keywords occurring in queries. -/
def pyLowerChar (c : Char) : Char :=
  if h : 'A' ≤ c ∧ c ≤ 'Z' then
    Char.ofNatAux (c.toNat + 32)
      (Or.inl (by
        rcases h with ⟨_, h2⟩
        have : c.toNat ≤ 90 := h2
        omega))
  else c

/-- str.lower() over a whole string. -/
def pyLower (s : Str) : Str := s.map pyLowerChar

/-- The substring test used by the host language's "in" operator. -/
def hasSub (pat : Str) : Str → Bool
  | [] => pat.isPrefixOf []
  | a :: rest => pat.isPrefixOf (a :: rest) || hasSub pat rest

/-- Fuel-based runner for str.count (the fuel only serves the termination
argument; countSub1 supplies enough for the scan to complete). -/
def countSub1Aux (c : Char) (cs : Str) : Nat → Str → Nat
  | 0, _ => 0
  | _ + 1, [] => 0
  | f + 1, a :: rest =>
    if (c :: cs).isPrefixOf (a :: rest) then
      countSub1Aux c cs f ((a :: rest).drop (cs.length + 1)) + 1
    else
      countSub1Aux c cs f rest

/-- str.count for a nonempty pattern (given as head and tail): the number of
non-overlapping occurrences scanning left to right. -/
def countSub1 (c : Char) (cs : Str) (s : Str) : Nat :=
  countSub1Aux c cs (s.length + 1) s

/-- str.count for an arbitrary pattern. -/
def countSub (pat s : Str) : Nat :=
  match pat with
  | [] => s.length + 1
  | c :: cs => countSub1 c cs s

/-- Fuel-based runner for str.split (the fuel only serves the termination
argument; pySplit1 supplies enough for the scan to complete). -/
def pySplit1Aux (c : Char) (cs : Str) : Nat → Str → List Str
  | 0, _ => [[]]
  | _ + 1, [] => [[]]
  | f + 1, a :: rest =>
    if (c :: cs).isPrefixOf (a :: rest) then
      [] :: pySplit1Aux c cs f ((a :: rest).drop (cs.length + 1))
    else
      match pySplit1Aux c cs f rest with
      | [] => [[a]]
      | h :: t => (a :: h) :: t

/-- str.split(sep) for a nonempty separator (head and tail given separately):
cut at each non-overlapping occurrence, left to right. -/
def pySplit1 (c : Char) (cs : Str) (s : Str) : List Str :=
  pySplit1Aux c cs (s.length + 1) s

/-- str.split(sep); the empty separator never occurs in the source. -/
def pySplit (sep s : Str) : List Str :=
  match sep with
  | [] => [s]
  | c :: cs => pySplit1 c cs s

/-- Decimal digit test. -/
def isDigitChar (c : Char) : Bool := 48 ≤ c.toNat && c.toNat ≤ 57

/-- Value of a decimal digit character. -/
def digitVal (c : Char) : Nat := c.toNat - 48

/-- The decimal digit character for n (n is always below ten at use sites). -/
def digitChar (n : Nat) : Char :=
  Char.ofNatAux (48 + n % 10) (Or.inl (by omega))

/-- Fuel-based runner for the decimal rendering (the fuel only serves the
termination argument; natDigits supplies enough). -/
def natDigitsAux : Nat → Nat → Str
  | 0, _ => []
  | f + 1, n =>
    if n < 10 then [digitChar n]
    else natDigitsAux f (n / 10) ++ [digitChar (n % 10)]

/-- Decimal rendering of a natural number, most significant digit first. -/
def natDigits (n : Nat) : Str := natDigitsAux (n + 1) n

/-- Numeric value of a digit string (no sign handling). -/
def valOfDigits (s : Str) : Nat := s.foldl (fun a c => a * 10 + digitVal c) 0

/-- Parse a nonempty all-digit string. -/
def digitsVal (s : Str) : Option Nat :=
  if s.isEmpty then none
  else if s.all isDigitChar then some (valOfDigits s) else none

/-- Zero-padded fixed-width decimal rendering. -/
def padNat (w n : Nat) : Str :=
  List.replicate (w - (natDigits n).length) '0' ++ natDigits n

/-- int(str): strip whitespace, optional sign, then a nonempty digit run.
(Underscore separators and non-ASCII digits are not modelled; none occur in
the data or queries of this system.) -/
def pyInt (s : Str) : Option Int :=
  let t := pystrip s
  if t.head? == some '+' then (digitsVal (t.drop 1)).map (fun n => (n : Int))
  else if t.head? == some '-' then (digitsVal (t.drop 1)).map (fun n => -(n : Int))
  else (digitsVal t).map (fun n => (n : Int))

/-- str(int). -/
def formatInt (k : Int) : Str :=
  if k < 0 then '-' :: natDigits k.natAbs else natDigits k.natAbs

/-- Optional exponent suffix of a float literal. -/
def parseExp (s : Str) : Option Int :=
  if s.isEmpty then some 0
  else if s.head? == some 'e' || s.head? == some 'E' then
    let r := s.drop 1
    if r.head? == some '+' then (digitsVal (r.drop 1)).map (fun n => (n : Int))
    else if r.head? == some '-' then (digitsVal (r.drop 1)).map (fun n => -(n : Int))
    else (digitsVal r).map (fun n => (n : Int))
  else none

/-- float(str) over finite decimal literals, as an exact rational.
("inf"/"nan" and underscore separators are not modelled; they never occur
in this system's data.) -/
def pyFloat (s : Str) : Option Rat :=
  let t := pystrip s
  let (sgn, t1) : Rat × Str :=
    if t.head? == some '+' then (1, t.drop 1)
    else if t.head? == some '-' then (-1, t.drop 1)
    else (1, t)
  let ip := t1.takeWhile isDigitChar
  let r1 := t1.dropWhile isDigitChar
  let (fp, r2) : Str × Str :=
    if r1.head? == some '.' then ((r1.drop 1).takeWhile isDigitChar, (r1.drop 1).dropWhile isDigitChar)
    else ([], r1)
  match parseExp r2 with
  | none => none
  | some ex =>
    if ip.isEmpty && fp.isEmpty then none
    else some (sgn * ((valOfDigits ip : Rat) + (valOfDigits fp : Rat) / (10 : Rat) ^ fp.length) * (10 : Rat) ^ ex)

/-- Round to the nearest integer, ties to even (the rounding of %.4f). -/
def roundHalfEven (x : Rat) : Int :=
  let f := ⌊x⌋
  let r := x - (f : Rat)
  if r < 1 / 2 then f
  else if 1 / 2 < r then f + 1
  else if f % 2 = 0 then f else f + 1

/-- The %.4f formatting applied to float values on write: quantize to four
fractional digits and render in fixed-point form. -/
def formatFloat4 (q : Rat) : Str :=
  let n := roundHalfEven (q * 10000)
  let a := n.natAbs
  (if n < 0 then ['-'] else []) ++ natDigits (a / 10000) ++ '.' :: padNat 4 (a % 10000)

/-- is_quoted_string from query.py; indexing an empty string raises, hence
the Option result. -/
def is_quoted_string (s : Str) : Option Bool :=
  match s.head?, s.getLast? with
  | some a, some b =>
    some ((a == dquoteChar && b == dquoteChar) || (a == squoteChar && b == squoteChar))
  | _, _ => none

/-- unquote_string from query.py: strip whitespace, then remove one pair of
surrounding quotes if present. -/
def unquote_string (s : Str) : Option Str :=
  let t := pystrip s
  match is_quoted_string t with
  | none => none
  | some true => some (t.drop 1).dropLast
  | some false => some t

/-- Calendar datetimes at second resolution (the stored data carries no
sub-second precision). -/
structure DateTime where
  year : Nat
  month : Nat
  day : Nat
  hour : Nat
  minute : Nat
  second : Nat
deriving DecidableEq, Repr

/-- Days in a month, with Gregorian leap years. -/
def daysInMonth (y m : Nat) : Nat :=
  if m = 2 then
    if y % 4 = 0 && (y % 100 ≠ 0 || y % 400 = 0) then 29 else 28
  else if m = 4 || m = 6 || m = 9 || m = 11 then 30
  else 31

/-- Range validity of a datetime, as enforced by the datetime constructor. -/
def validDT (d : DateTime) : Bool :=
  1 ≤ d.year && d.year ≤ 9999 && 1 ≤ d.month && d.month ≤ 12 &&
  1 ≤ d.day && d.day ≤ daysInMonth d.year d.month &&
  d.hour < 24 && d.minute < 60 && d.second < 60

/-- Fixed-width digit field: w digit characters and their value. -/
def fixedDigits (w : Nat) (s : Str) : Option Nat :=
  if s.length = w && s.all isDigitChar then some (valOfDigits s) else none

/-- datetime.fromisoformat over the extended format
YYYY-MM-DD[sep HH:MM[:SS]] (sep is T or space); range errors reject. -/
def parseISO (s : Str) : Option DateTime := do
  let y ← fixedDigits 4 (s.take 4)
  let r1 := s.drop 4
  match r1 with
  | '-' :: r1a =>
    let mo ← fixedDigits 2 (r1a.take 2)
    let r2 := r1a.drop 2
    match r2 with
    | '-' :: r2a =>
      let dd ← fixedDigits 2 (r2a.take 2)
      let rest := r2a.drop 2
      let dt ←
        match rest with
        | [] => some (DateTime.mk y mo dd 0 0 0)
        | sep :: r3 =>
          if sep = 'T' || sep = ' ' then do
            let hh ← fixedDigits 2 (r3.take 2)
            let r4 := r3.drop 2
            match r4 with
            | ':' :: r4a =>
              let mi ← fixedDigits 2 (r4a.take 2)
              let r5 := r4a.drop 2
              match r5 with
              | [] => some (DateTime.mk y mo dd hh mi 0)
              | ':' :: r5a => do
                let ss ← fixedDigits 2 r5a
                some (DateTime.mk y mo dd hh mi ss)
              | _ => none
            | _ => none
          else none
      if validDT dt then some dt else none
    | _ => none
  | _ => none

/-- datetime.isoformat() on second-resolution values. -/
def DateTime.isoformat (d : DateTime) : Str :=
  padNat 4 d.year ++
    ('-' :: (padNat 2 d.month ++
      ('-' :: (padNat 2 d.day ++
        ('T' :: (padNat 2 d.hour ++
          (':' :: (padNat 2 d.minute ++
            (':' :: padNat 2 d.second)))))))))

/-- The four column types of the catalog. -/
inductive ColumnType where
  | int | float | str | datetime
deriving DecidableEq, Repr

/-- Typed cell values. Floats are exact rationals (see the header note). -/
inductive Value where
  | vInt (n : Int)
  | vFloat (q : Rat)
  | vStr (s : Str)
  | vDatetime (d : DateTime)
deriving DecidableEq, Repr

/-- The type tag of a value. -/
def Value.tag : Value → ColumnType
  | .vInt _ => .int
  | .vFloat _ => .float
  | .vStr _ => .str
  | .vDatetime _ => .datetime

/-- Generic lexicographic strict order, as the host language compares
sequences: skip equal heads, then compare; a proper prefix is smaller. -/
def lexLtBy {α : Type} [DecidableEq α] (lt : α → α → Bool) : List α → List α → Bool
  | _, [] => false
  | [], _ :: _ => true
  | a :: as, b :: bs => if a = b then lexLtBy lt as bs else lt a b

/-- String comparison by code point. -/
def strLtB (a b : Str) : Bool := lexLtBy (fun c d => decide (c.toNat < d.toNat)) a b

/-- Datetimes compare lexicographically on their components. -/
def DateTime.fields (d : DateTime) : List Nat :=
  [d.year, d.month, d.day, d.hour, d.minute, d.second]

/-- Chronological order on datetimes. -/
def dtLtB (a b : DateTime) : Bool := lexLtBy (fun m n => decide (m < n)) a.fields b.fields

/-- The host language's < on values: numeric across int/float, code-point
lexicographic on str, chronological on datetime; incompatible tags are
never compared by well-typed data (the Bool result is false there, see
valueLtOp for the faithful raising variant). -/
def valueLt : Value → Value → Bool
  | .vInt a, .vInt b => decide (a < b)
  | .vInt a, .vFloat q => decide ((a : Rat) < q)
  | .vFloat q, .vInt a => decide (q < (a : Rat))
  | .vFloat a, .vFloat b => decide (a < b)
  | .vStr a, .vStr b => strLtB a b
  | .vDatetime a, .vDatetime b => dtLtB a b
  | _, _ => false

/-- The host language's == on values: numeric across int/float, structural
within a type, False across incompatible types. -/
def valueEqB : Value → Value → Bool
  | .vInt a, .vInt b => a == b
  | .vInt a, .vFloat q => (a : Rat) == q
  | .vFloat q, .vInt a => q == (a : Rat)
  | .vFloat a, .vFloat b => a == b
  | .vStr a, .vStr b => a == b
  | .vDatetime a, .vDatetime b => a == b
  | _, _ => false

/-- Whether two values may be order-compared without a type error. -/
def valueComparable : Value → Value → Bool
  | .vInt _, .vInt _ => true
  | .vInt _, .vFloat _ => true
  | .vFloat _, .vInt _ => true
  | .vFloat _, .vFloat _ => true
  | .vStr _, .vStr _ => true
  | .vDatetime _, .vDatetime _ => true
  | _, _ => false

/-- The host language's <, raising a type error on incompatible tags. -/
def valueLtOp (a b : Value) : Option Bool :=
  if valueComparable a b then some (valueLt a b) else none

/-- The host language's <=. -/
def valueLeOp (a b : Value) : Option Bool :=
  if valueComparable a b then some (valueLt a b || valueEqB a b) else none

/-- A column of the catalog. -/
structure Column where
  name : Str
  type : ColumnType
deriving DecidableEq, Repr

/-- Result rows are lists of typed values. -/
abbrev Row := List Value

/-- An in-memory result set, as produced by reads and operators. -/
structure ResultSet where
  table_name : Str
  columns : List Column
  rows : List Row
deriving DecidableEq, Repr

/-- ResultSet.headers: lower-cased column names. -/
def ResultSet.headers (rs : ResultSet) : List Str :=
  rs.columns.map (fun c => pyLower c.name)

/-- A catalog table: name, ordered columns, row-file name, next synthetic id. -/
structure Table where
  name : Str
  columns : List Column
  file : Str
  next_id : Int
deriving DecidableEq, Repr

/-- Table.headers: lower-cased column names. -/
def Table.headers (t : Table) : List Str :=
  t.columns.map (fun c => pyLower c.name)

/-- Table.prefixed_headers: table.column, lower-cased column part. -/
def Table.prefixed_headers (t : Table) : List Str :=
  t.columns.map (fun c => t.name ++ '.' :: pyLower c.name)

/-- The catalog database: named, with an ordered table list. -/
structure Database where
  name : Str
  tables : List Table
deriving DecidableEq, Repr

/-- Database.get_table: first table of the given name, error if absent. -/
def Database.get_table (db : Database) (n : Str) : Option Table :=
  db.tables.find? (fun t => t.name == n)

/-- Table.get_column: first column of the given name, error if absent. -/
def Table.get_column (t : Table) (n : Str) : Option Column :=
  t.columns.find? (fun c => c.name == n)

/-- A stored row file: lines of cells. The CSV layer (minimal quoting,
delimiter, line terminator) round-trips each cell exactly and is abstracted
to the cell lists it transports. -/
abbrev FileData := List (List Str)

/-- The data directory: file names mapped to contents. -/
abbrev FileSys := List (Str × FileData)

/-- Look a file up in the data directory. -/
def fsLookup (fs : FileSys) (n : Str) : Option FileData :=
  (fs.find? (fun p => p.1 == n)).map Prod.snd

/-- Replace (or create) a file. -/
def fsWrite (fs : FileSys) (n : Str) (d : FileData) : FileSys :=
  match fs with
  | [] => [(n, d)]
  | (m, e) :: rest => if m == n then (m, d) :: rest else (m, e) :: fsWrite rest n d

/-- Traverse a list with a fallible function, failing at the first error
(the host's loop raising on the first bad element). -/
def mapOpt {α β : Type} (f : α → Option β) : List α → Option (List β)
  | [] => some []
  | a :: as => do
    let b ← f a
    let bs ← mapOpt f as
    some (b :: bs)

/-- Name of the synthetic primary-key column. -/
def idColName : Str := "__id".toList

/-- The star projection token. -/
def starStr : Str := "*".toList

/-- The dot used in qualified identifiers. -/
def dotStr : Str := ".".toList

/-- The unix epoch, the decode of an empty datetime cell. -/
def epochDT : DateTime := DateTime.mk 1970 1 1 0 0 0

/-- parse_value from db.py: decode one stored cell per the column type;
empty cells decode to the type's zero value. -/
def parse_value (value : Str) (column : Column) : Option Value :=
  if value.isEmpty then
    match column.type with
    | .datetime => some (Value.vDatetime epochDT)
    | .int => some (Value.vInt 0)
    | .float => some (Value.vFloat 0)
    | .str => some (Value.vStr [])
  else
    match column.type with
    | .int => (pyInt value).map Value.vInt
    | .float => (pyFloat value).map Value.vFloat
    | .str => (unquote_string value).map Value.vStr
    | .datetime => ((unquote_string value).bind parseISO).map Value.vDatetime

/-- Serialization of one value on write (Table.write's per-cell rendering):
datetime to ISO-8601, float to %.4f, the rest to their str() form. -/
def formatValue : Value → Str
  | .vDatetime d => d.isoformat
  | .vFloat q => formatFloat4 q
  | .vInt n => formatInt n
  | .vStr s => s

/-- Decode the cells of one stored line against the catalog columns,
indexing columns positionally; a line longer than the column list raises. -/
def readRow (cols : List Column) : List Str → Nat → Option Row
  | [], _ => some []
  | cell :: rest, i => do
    let col ← cols[i]?
    let v ← parse_value cell col
    let vs ← readRow cols rest (i + 1)
    some (v :: vs)

/-- Table.read on given file contents: skip the header line, decode each
row; optionally prefix column names with the table name. -/
def Table.readData (t : Table) (fd : FileData) (prefixed : Bool) : Option ResultSet := do
  let rows ← mapOpt (fun line => readRow t.columns line 0) (fd.drop 1)
  let cols :=
    if prefixed then t.columns.map (fun c => Column.mk (t.name ++ '.' :: c.name) c.type)
    else t.columns
  some (ResultSet.mk t.name cols rows)

/-- Table.read: look the row file up in the data directory and decode it. -/
def Table.read (t : Table) (prefixed : Bool) (fs : FileSys) : Option ResultSet := do
  let fd ← fsLookup fs t.file
  t.readData fd prefixed

/-- Table.write: reject a result set from another table or with mismatched
headers, then serialize the header line and every row. -/
def Table.write (t : Table) (rs : ResultSet) : Option FileData :=
  if rs.table_name ≠ t.name then none
  else if rs.headers ≠ t.headers then none
  else some (t.headers :: rs.rows.map (fun r => r.map formatValue))

/-- Index scan underlying tuple.index: first position holding n. -/
def idxOfAux (n : Str) : List Str → Nat → Option Nat
  | [], _ => none
  | x :: xs, i => if x == n then some i else idxOfAux n xs (i + 1)

/-- get_column_index from db.py: first index of the name, error if absent. -/
def get_column_index (names : List Str) (n : Str) : Option Nat :=
  idxOfAux n names 0

/-- The cell construction loop of Table.create_row: `__id` takes the
table's next_id, a supplied field decodes its literal, a missing field
gets the empty string. -/
def createCells (t : Table) (values fields : List Str) : List Column → Option Row
  | [] => some []
  | col :: rest => do
    let v ←
      if col.name == idColName then some (Value.vInt t.next_id)
      else
        match get_column_index fields col.name with
        | some i => do
          let cell ← values[i]?
          parse_value cell col
        | none => some (Value.vStr [])
    let vs ← createCells t values fields rest
    some (v :: vs)

/-- Table.create_row: build the new row and bump next_id. -/
def Table.create_row (t : Table) (values fields : List Str) : Option (Row × Table) :=
  (createCells t values fields t.columns).map
    (fun r => (r, { t with next_id := t.next_id + 1 }))

/-- A predicate tree node: one comparison with optional OR / AND children. -/
inductive Where where
  | mk (left_hand right_hand operator : Str) (or_where and_where : Option Where)

/-- Left-hand side of the comparison. -/
def Where.left_hand : Where → Str
  | .mk l _ _ _ _ => l

/-- Right-hand side of the comparison. -/
def Where.right_hand : Where → Str
  | .mk _ r _ _ _ => r

/-- Comparison operator, kept as its source text. -/
def Where.operator : Where → Str
  | .mk _ _ o _ _ => o

/-- Optional OR child. -/
def Where.or_where : Where → Option Where
  | .mk _ _ _ o _ => o

/-- Optional AND child. -/
def Where.and_where : Where → Option Where
  | .mk _ _ _ _ a => a

/-- Replace the OR child (the parser's assignment to first_where.or_where). -/
def Where.setOr : Where → Option Where → Where
  | .mk l r o _ a, x => .mk l r o x a

/-- Replace the AND child. -/
def Where.setAnd : Where → Option Where → Where
  | .mk l r o ow _, x => .mk l r o ow x

/-- The comparison operators, in the exact order the parser tests them. -/
def opGe : Str := ">=".toList
def opLe : Str := "<=".toList
def opEq : Str := "=".toList
def opNe : Str := "!=".toList
def opGt : Str := ">".toList
def opLt : Str := "<".toList

/-- The operator test order of the single-comparison parser. -/
def opOrder : List Str := [opGe, opLe, opEq, opNe, opGt, opLt]

/-- The boolean connector keywords searched for in a WHERE fragment. -/
def kwOr : Str := " or ".toList
def kwAnd : Str := " and ".toList

/-- Split, trim and quote-check step shared by every operator branch of the
single-comparison parser: the host unpacks the split into exactly two
parts (raising otherwise), trims both, and rejects a right-hand side that
opens with a quote it does not close with. -/
def mkCond (op : Str) (parts : List Str) : Option Where :=
  match parts with
  | [l, r] =>
    let lh := pystrip l
    let rh := pystrip r
    if rh.head? == some squoteChar && rh.getLast? != some squoteChar then none
    else if rh.head? == some dquoteChar && rh.getLast? != some dquoteChar then none
    else some (Where.mk (pystrip lh) (pystrip rh) op none none)
  | _ => none

/-- The single-comparison parser (__parse_condition in query.py): test the
operators in order, split on the first operator found anywhere in the
trimmed fragment. -/
def parse_condition (s : Str) : Option Where :=
  let q := pystrip s
  if hasSub opGe q then mkCond opGe (pySplit opGe q)
  else if hasSub opLe q then mkCond opLe (pySplit opLe q)
  else if hasSub opEq q then mkCond opEq (pySplit opEq q)
  else if hasSub opNe q then mkCond opNe (pySplit opNe q)
  else if hasSub opGt q then mkCond opGt (pySplit opGt q)
  else if hasSub opLt q then mkCond opLt (pySplit opLt q)
  else none

/-- Occurrence positions of a pattern inside a string. -/
def occPositions (pat s : Str) : List Nat :=
  (List.range s.length).filter (fun i => pat.isPrefixOf (s.drop i))

/-- The split performed by the greedy regex search "(.*) kw (.*)": the
match sits at the last occurrence of the keyword. -/
def lastOcc (pat s : Str) : Option Nat := (occPositions pat s).getLast?

/-- parse_where from query.py: reject more than one connector in total,
split case-insensitively on OR, else on AND, else parse one comparison. -/
def parse_where (s : Str) : Option Where :=
  let q := pystrip s
  let lw := pyLower q
  if countSub kwOr lw + countSub kwAnd lw > 1 then none
  else if hasSub kwOr lw then
    match lastOcc kwOr lw with
    | none => none
    | some i => do
      let first ← parse_condition (q.take i)
      let second ← parse_condition (q.drop (i + 4))
      some (first.setOr (some second))
  else if hasSub kwAnd lw then
    match lastOcc kwAnd lw with
    | none => none
    | some i => do
      let first ← parse_condition (q.take i)
      let second ← parse_condition (q.drop (i + 5))
      some (first.setAnd (some second))
  else parse_condition q

/-- Evaluation of one comparison against one row
(ResultSet.__satisfies_condition in db.py): resolve the left-hand column,
resolve the right-hand as a column or else coerce the literal by the
left-hand column's type, then apply the operator. -/
def satisfies_condition (w : Where) (row : Row) (columns : List Column)
    (column_names : List Str) : Option Bool := do
  let i ← get_column_index column_names w.left_hand
  let lhv ← row[i]?
  let lhc ← columns[i]?
  let rhv ←
    match get_column_index column_names w.right_hand with
    | some j => row[j]?
    | none =>
      match lhc.type with
      | .str => (unquote_string w.right_hand).map Value.vStr
      | .int => (pyInt w.right_hand).map Value.vInt
      | .float => (pyFloat w.right_hand).map Value.vFloat
      | .datetime => ((unquote_string w.right_hand).bind parseISO).map Value.vDatetime
  if w.operator == opEq then some (valueEqB lhv rhv)
  else if w.operator == opGt then valueLtOp rhv lhv
  else if w.operator == opLt then valueLtOp lhv rhv
  else if w.operator == opGe then valueLeOp rhv lhv
  else if w.operator == opLe then valueLeOp lhv rhv
  else if w.operator == opNe then some (!valueEqB lhv rhv)
  else none

/-- Filter a list by a fallible predicate, failing on the first error, as
the row loop of ResultSet.where does. -/
def filterOpt {α : Type} (p : α → Option Bool) : List α → Option (List α)
  | [] => some []
  | a :: as => do
    let b ← p a
    let rest ← filterOpt p as
    if b then some (a :: rest) else some rest

/-- Evaluation of a predicate tree on one row, with the combination rule of
ResultSet.where: an AND child takes precedence, then an OR child, with the
host's short-circuit evaluation. -/
def rowPasses (w : Where) (row : Row) (cols : List Column) (names : List Str) : Option Bool :=
  match w.and_where with
  | some aw => do
    let b ← satisfies_condition w row cols names
    if b then satisfies_condition aw row cols names else some false
  | none =>
    match w.or_where with
    | some ow => do
      let b ← satisfies_condition w row cols names
      if b then some true else satisfies_condition ow row cols names
    | none => satisfies_condition w row cols names

/-- ResultSet.where: keep the rows satisfying the predicate, in a new
result set with the same name and columns. -/
def ResultSet.filterWhere (rs : ResultSet) (w : Where) : Option ResultSet := do
  let names := rs.columns.map Column.name
  let rows ← filterOpt (fun r => rowPasses w r rs.columns names) rs.rows
  some (ResultSet.mk rs.table_name rs.columns rows)

/-- The synthesized name of a join result. -/
def innerJoinSep : Str := " INNER JOIN ".toList

/-- ResultSet.inner_join: nested-loop cartesian product filtered by the
join predicate over the concatenated row and columns. -/
def ResultSet.inner_join (rs other : ResultSet) (onW : Where) : Option ResultSet := do
  let joined_columns := rs.columns ++ other.columns
  let names := joined_columns.map Column.name
  let pairs := (rs.rows.map (fun r => other.rows.map (fun o => r ++ o))).flatten
  let rows ← filterOpt (fun jr => satisfies_condition onW jr joined_columns names) pairs
  some (ResultSet.mk (rs.table_name ++ innerJoinSep ++ other.table_name) joined_columns rows)

/-- Stable insertion used by the sort model: x goes in front of the first
element not strictly below it, so earlier elements win ties. -/
def insertRowS {α : Type} (lt : α → α → Bool) (x : α) : List α → List α
  | [] => [x]
  | b :: bs => if lt b x then b :: insertRowS lt x bs else x :: b :: bs

/-- A stable sort by a strict comparison: the embedding of the host's
stable sorted(). Two stable sorts under the same comparison agree, so the
choice of insertion sort is immaterial. -/
def sortStable {α : Type} (lt : α → α → Bool) : List α → List α
  | [] => []
  | x :: xs => insertRowS lt x (sortStable lt xs)

/-- The sort key of the ORDER BY step: the value in the selected column
(theorems about sorting require the index in range, matching the host
where an out-of-range key raises). -/
def rowKey (i : Nat) (r : Row) : Value := r.getD i (Value.vInt 0)

/-- ORDER BY directions. -/
inductive Direction where
  | asc | desc
deriving DecidableEq, Repr

/-- The row reordering of the ORDER BY step: a stable sort on the selected
column, by the reversed comparison for desc (how the host realizes
reverse=True). -/
def orderRows (rows : List Row) (i : Nat) (dir : Direction) : List Row :=
  match dir with
  | .desc => sortStable (fun a b => valueLt (rowKey i b) (rowKey i a)) rows
  | .asc => sortStable (fun a b => valueLt (rowKey i a) (rowKey i b)) rows

/-- ORDER BY clause. -/
structure OrderBy where
  field : Str
  direction : Direction
deriving Repr

/-- A parsed SELECT statement; whereClause models the attribute the source
calls where. -/
structure Select where
  fields : List Str
  table : Str
  join_table : Option Str
  join_on : Option Where
  whereClause : Option Where
  order_by : Option OrderBy
  limit : Option Int

/-- Select.is_join: both join parts present (an "is not None" test, not a
truthiness test). -/
def Select.is_join (s : Select) : Bool :=
  s.join_table.isSome && s.join_on.isSome

/-- Resolution of a possibly qualified identifier to (table name, column
name), as validate_where performs it: split on the dot (the host unpacks
exactly two parts), else attribute it to the given table. -/
def splitQualified (table_name ident : Str) : Option (Str × Str) :=
  if hasSub dotStr ident then
    match pySplit dotStr ident with
    | [a, b] => some (a, b)
    | _ => none
  else some (table_name, ident)

/-- The column an identifier on the left of a comparison resolves to. -/
def resolveLeftColumn (db : Database) (table_name ident : Str) : Option Column := do
  let p ← splitQualified table_name ident
  let t ← db.get_table p.1
  t.get_column p.2

/-- validate_where from db.py: resolve the left side (qualified or bare)
to a column, then either match the right side as a column of equal type or
check the literal against the left column's type; recurse into children. -/
def validate_where : Where → Database → List Str → Str → Option Unit
  | Where.mk lh rh _op ow aw, db, headers, table_name => do
    if headers.contains lh then
      let p ← splitQualified table_name lh
      let ltab ← db.get_table p.1
      let lc ← ltab.get_column p.2
      let _ ←
        if headers.contains rh then do
          let pr ← splitQualified p.1 rh
          if (db.tables.map Table.name).contains pr.1 then do
            let rtab ← db.get_table pr.1
            let rc ← rtab.get_column pr.2
            if lc.type == rc.type then some () else none
          else none
        else
          match lc.type with
          | .str =>
            match is_quoted_string rh with
            | some true => some ()
            | _ => none
          | .int => if (pyInt rh).isSome then some () else none
          | .float => if (pyFloat rh).isSome then some () else none
          | .datetime =>
            match is_quoted_string rh with
            | some true =>
              if (parseISO (pyStripChars (pyStripChars rh dquoteChar) squoteChar)).isSome
              then some () else none
            | _ => none
      let _ ←
        match aw with
        | some a => validate_where a db headers table_name
        | none => some ()
      match ow with
      | some o => validate_where o db headers table_name
      | none => some ()
    else none

/-- The header set Select.validate checks fields, predicates and ordering
against: bare headers, or both tables' prefixed headers when joining. -/
def Select.activeHeaders (s : Select) (db : Database) : Option (List Str) := do
  let t ← db.get_table s.table
  match s.join_table with
  | some jt =>
    if jt.isEmpty then some t.headers
    else do
      let j ← db.get_table jt
      some (t.prefixed_headers ++ j.prefixed_headers)
  | none => some t.headers

/-- Select.validate from query_select.py. -/
def Select.validate (s : Select) (db : Database) : Option Unit := do
  if (db.tables.map Table.name).contains s.table then
    let t ← db.get_table s.table
    let headers ←
      match s.join_table with
      | some jt =>
        if jt.isEmpty then some t.headers
        else
          if (db.tables.map Table.name).contains jt then do
            let j ← db.get_table jt
            let hs := t.prefixed_headers ++ j.prefixed_headers
            match s.join_on with
            | none => none
            | some onW =>
              if hs.contains onW.left_hand then
                if hs.contains onW.right_hand then some hs else none
              else none
          else none
      | none => some t.headers
    let _ ←
      match s.whereClause with
      | some w => validate_where w db headers s.table
      | none => some ()
    let _ ←
      match s.order_by with
      | some ob => if headers.contains ob.field then some () else none
      | none => some ()
    let _ ←
      match s.limit with
      | some n => if n ≠ 0 then (if n < 0 then none else some ()) else some ()
      | none => some ()
    if s.fields == [starStr] then some ()
    else
      s.fields.foldlM
        (fun _ f => do
          let _ ←
            if hasSub dotStr f then
              if (db.tables.map Table.name).contains ((pySplit dotStr f).headD []) then some ()
              else none
            else some ()
          if headers.contains f then some () else none)
        ()
  else none

/-- List slicing l[:n] with the host's negative-index convention. -/
def pyTake {α : Type} (n : Int) (l : List α) : List α :=
  if 0 ≤ n then l.take n.toNat else l.take (l.length - (-n).toNat)

/-- The final LIMIT step of Select.execute: applied only when the limit is
present and nonzero (the host's truthiness test). -/
def applyLimit (lim : Option Int) (rs : ResultSet) : ResultSet :=
  match lim with
  | some n => if n ≠ 0 then { rs with rows := pyTake n rs.rows } else rs
  | none => rs

/-- Select.execute up to but excluding the LIMIT step: read (prefixed when
joining), join, filter, project, order. The source performs these steps by
reassigning the local result set; the composition is identical. -/
def Select.executeBase (s : Select) (db : Database) (fs : FileSys) : Option ResultSet := do
  let t ← db.get_table s.table
  let rs ← t.read s.is_join fs
  let rs ←
    match s.join_table, s.join_on with
    | some jt, some onW =>
      if jt.isEmpty then some rs
      else do
        let j ← db.get_table jt
        let jrs ← j.read true fs
        rs.inner_join jrs onW
    | _, _ => some rs
  let rs ←
    match s.whereClause with
    | some w => rs.filterWhere w
    | none => some rs
  let rs ←
    if s.fields == [starStr] then some rs
    else do
      let idxs ← mapOpt (fun f => get_column_index rs.headers f) s.fields
      let rows ← mapOpt (fun r => mapOpt (fun i => r[i]?) idxs) rs.rows
      let cols ← mapOpt (fun i => rs.columns[i]?) idxs
      some (ResultSet.mk rs.table_name cols rows)
  match s.order_by with
  | some ob =>
    match get_column_index rs.headers ob.field with
    | none => none
    | some i =>
      if rs.rows.all (fun r => decide (i < r.length)) then
        some (ResultSet.mk rs.table_name rs.columns (orderRows rs.rows i ob.direction))
      else none
  | none => some rs

/-- Select.execute: the pipeline above followed by the LIMIT step. -/
def Select.execute (s : Select) (db : Database) (fs : FileSys) : Option ResultSet :=
  (s.executeBase db fs).map (applyLimit s.limit)

/-- Select.set_default_limit: install the default when the limit is absent
or zero (the host's truthiness test on the stored limit). -/
def Select.set_default_limit (s : Select) (n : Int) : Select :=
  match s.limit with
  | none => { s with limit := some n }
  | some k => if k = 0 then { s with limit := some n } else s

/-- The SELECT path of the calling surface (main in simple_db.py): install
the default limit of 100, validate, execute. -/
def selectSurface (s : Select) (db : Database) (fs : FileSys) : Option ResultSet := do
  let s' := s.set_default_limit 100
  let _ ← s'.validate db
  s'.execute db fs

/-- A parsed INSERT statement (the source's Insert class; that name is
taken by a core typeclass here). -/
structure InsertStmt where
  table : Str
  fields : List Str
  values : List Str

/-- The literal well-formedness check both mutation validators apply to a
value destined for a column: quoted for str, int/float-parseable for the
numeric types, quoted with an ISO-parseable interior for datetime. -/
def valueTypeOK (ct : ColumnType) (v : Str) : Bool :=
  match ct with
  | .str =>
    match is_quoted_string v with
    | some true => true
    | _ => false
  | .int => (pyInt v).isSome
  | .float => (pyFloat v).isSome
  | .datetime =>
    match is_quoted_string v with
    | some true => ((unquote_string v).bind parseISO).isSome
    | _ => false

/-- The per-field loop of Insert.validate and Update.validate: the field
must be a header, and the value literal must be well formed for the
column's type (quoted for str, ISO-parseable quoted for datetime,
int/float-parseable otherwise). -/
def checkFieldValues (t : Table) : List Str → List Str → Option Unit
  | [], _ => some ()
  | f :: fsRest, vals =>
    match vals with
    | [] => none
    | v :: vsRest => do
      let _ ← if t.headers.contains f then some () else none
      let col ← t.get_column f
      let _ ← if valueTypeOK col.type v then some () else none
      checkFieldValues t fsRest vsRest

/-- Insert.validate: arity, table existence, the `__id` rejection, then the
per-field checks. -/
def InsertStmt.validate (ins : InsertStmt) (db : Database) : Option Unit := do
  let _ ← if ins.fields.length = ins.values.length then some () else none
  let _ ← if (db.tables.map Table.name).contains ins.table then some () else none
  let _ ← if ins.fields.contains idColName then none else some ()
  let t ← db.get_table ins.table
  checkFieldValues t ins.fields ins.values

/-- Replace a table in the catalog by name (the source mutates the aliased
Table object inside the Database). -/
def dbUpdate (db : Database) (t' : Table) : Database :=
  Database.mk db.name (db.tables.map (fun t => if t.name == t'.name then t' else t))

/-- Insert.execute: read the table, append the created row, write the file
back; the catalog's next_id was bumped by create_row. -/
def InsertStmt.execute (ins : InsertStmt) (db : Database) (fs : FileSys) :
    Option (FileSys × Database) := do
  let t ← db.get_table ins.table
  let rs ← t.read false fs
  let rt ← t.create_row ins.values ins.fields
  let rs' := { rs with rows := rs.rows ++ [rt.1] }
  let fd ← rt.2.write rs'
  some (fsWrite fs rt.2.file fd, dbUpdate db rt.2)

/-- A parsed UPDATE statement. -/
structure Update where
  table : Str
  fields : List Str
  values : List Str
  whereClause : Option Where

/-- Update.validate: table existence, arity, the per-field checks (with no
`__id` rejection), then WHERE validation. -/
def Update.validate (u : Update) (db : Database) : Option Unit := do
  let _ ← if (db.tables.map Table.name).contains u.table then some () else none
  let _ ← if u.fields.length = u.values.length then some () else none
  let t ← db.get_table u.table
  let _ ← checkFieldValues t u.fields u.values
  match u.whereClause with
  | some w => validate_where w db t.headers t.name
  | none => some ()

/-- A parsed DELETE statement. -/
structure Delete where
  table : Str
  whereClause : Option Where

/-- Delete.validate: only the table and the root predicate's left-hand
column are checked. -/
def Delete.validate (d : Delete) (db : Database) : Option Unit := do
  let _ ← if (db.tables.map Table.name).contains d.table then some () else none
  let t ← db.get_table d.table
  match d.whereClause with
  | some w => if t.headers.contains w.left_hand then some () else none
  | none => some ()

/-- One stored cell is in write-canonical form for its column when decoding
and re-encoding it reproduces it exactly. -/
def cellRoundTrips (col : Column) (cell : Str) : Bool :=
  match parse_value cell col with
  | some v => formatValue v == cell
  | none => false

/-- Every cell of a stored line is canonical against the column list, and
the line is no longer than it (a longer line raises on read). -/
def rowCanon : List Str → List Column → Bool
  | [], _ => true
  | _ :: _, [] => false
  | cell :: cs, col :: rest => cellRoundTrips col cell && rowCanon cs rest

/-- A stored file is canonical for a table when its header line is the
table's headers and every data line is canonical. -/
def canonicalFile (t : Table) (fd : FileData) : Bool :=
  match fd with
  | [] => false
  | header :: rows => header == t.headers && rows.all (fun line => rowCanon line t.columns)

/-- A comparison whose left side resolves to a str column and whose right
side is an unquoted literal (not an active header). -/
def badStrLiteralB (db : Database) (headers : List Str) (table_name : Str) (w : Where) : Bool :=
  headers.contains w.left_hand &&
  (match resolveLeftColumn db table_name w.left_hand with
   | some c => c.type == ColumnType.str
   | none => false) &&
  !(headers.contains w.right_hand) &&
  !(is_quoted_string w.right_hand == some true)

/-- Some comparison of the predicate tree is a bad str/literal comparison. -/
def hasBadNode (db : Database) (headers : List Str) (table_name : Str) : Where → Bool
  | Where.mk l r o ow aw =>
    badStrLiteralB db headers table_name (Where.mk l r o ow aw) ||
    (match aw with
     | some a => hasBadNode db headers table_name a
     | none => false) ||
    (match ow with
     | some o2 => hasBadNode db headers table_name o2
     | none => false)

/-- No comparison of the predicate tree carries the != operator. -/
def Where.noNeqOp : Where → Bool
  | Where.mk _ _ o ow aw =>
    (o != opNe) &&
    (match ow with
     | some o2 => o2.noNeqOp
     | none => true) &&
    (match aw with
     | some a => a.noNeqOp
     | none => true)

/-- The ON condition parse_select builds for JOIN ... USING (c): the
equality of the two prefixed columns. -/
def usingJoinOn (tbl jt fld : Str) : Where :=
  Where.mk (tbl ++ '.' :: fld) (jt ++ '.' :: fld) opEq none none

/-- Characters an identifier may consist of for the USING/ON equivalence:
no whitespace, comparison characters or quotes. -/
def identCharOK (c : Char) : Bool :=
  !isPySpace c && c != '=' && c != '<' && c != '>' && c != squoteChar && c != dquoteChar

/-- A nonempty identifier of plain characters. -/
def identOK (s : Str) : Prop :=
  s ≠ [] ∧ ∀ ch ∈ s, identCharOK ch = true

/-- A three-row demonstration table users(__id int, name str, age int). -/
def usersTable : Table :=
  Table.mk ("users".toList)
    [Column.mk idColName ColumnType.int,
     Column.mk ("name".toList) ColumnType.str,
     Column.mk ("age".toList) ColumnType.int]
    ("users.csv".toList) 3

/-- The stored rows of the demonstration table. -/
def usersFile : FileData :=
  [[idColName, "name".toList, "age".toList],
   ["0".toList, "ana".toList, "30".toList],
   ["1".toList, "bo".toList, "17".toList],
   ["2".toList, "cy".toList, "42".toList]]

/-- The demonstration data directory. -/
def demoFs : FileSys := [("users.csv".toList, usersFile)]

/-- The demonstration catalog. -/
def demoDb : Database := Database.mk ("demo".toList) [usersTable]

/-- SELECT * FROM users LIMIT 0, as parsed. -/
def limit0Select : Select :=
  Select.mk [starStr] ("users".toList) none none none none (some 0)

/-- SELECT * FROM users LIMIT 5, as parsed. -/
def limit5Select : Select :=
  Select.mk [starStr] ("users".toList) none none none none (some 5)

/-- UPDATE users SET __id = 5, as parsed. -/
def idUpdate : Update :=
  Update.mk ("users".toList) [idColName] ["5".toList] none

/-- The comparison name = bo: a str column against an unquoted literal. -/
def unquotedNameWhere : Where :=
  Where.mk ("name".toList) ("bo".toList) opEq none none

/-- DELETE FROM users WHERE name = bo, as parsed. -/
def unquotedDelete : Delete :=
  Delete.mk ("users".toList) (some unquotedNameWhere)

/-- SELECT * FROM users WHERE name = bo, as parsed. -/
def unquotedSelect : Select :=
  Select.mk [starStr] ("users".toList) none none (some unquotedNameWhere) none none

/-- UPDATE users SET age = 18 WHERE name = bo, as parsed. -/
def unquotedUpdate : Update :=
  Update.mk ("users".toList) ["age".toList] ["18".toList] (some unquotedNameWhere)

/-- INSERT INTO users (name, age) VALUES ('dee', 25), as parsed. -/
def demoInsert : InsertStmt :=
  InsertStmt.mk ("users".toList) ["name".toList, "age".toList]
    [squoteChar :: "dee".toList ++ [squoteChar], "25".toList]

/-- INSERT INTO users (__id, name) VALUES (7, 'x'), as parsed. -/
def idInsert : InsertStmt :=
  InsertStmt.mk ("users".toList) [idColName, "name".toList]
    ["7".toList, squoteChar :: "x".toList ++ [squoteChar]]

/-- A stored file whose str cell carries quotes: not write-canonical. -/
def quotedNameFile : FileData :=
  [[idColName, "name".toList, "age".toList],
   ["0".toList, squoteChar :: "John".toList ++ [squoteChar], "30".toList]]

/-- Rows with a duplicated sort key in the age column (index 2). -/
def tieRows : List Row :=
  [[Value.vInt 0, Value.vStr ("ana".toList), Value.vInt 30],
   [Value.vInt 1, Value.vStr ("bo".toList), Value.vInt 17],
   [Value.vInt 2, Value.vStr ("cy".toList), Value.vInt 30]]

/-- The full contents of the demonstration table as a result set. -/
def demoAllRows : ResultSet :=
  ResultSet.mk ("users".toList) usersTable.columns
    [[Value.vInt 0, Value.vStr ("ana".toList), Value.vInt 30],
     [Value.vInt 1, Value.vStr ("bo".toList), Value.vInt 17],
     [Value.vInt 2, Value.vStr ("cy".toList), Value.vInt 42]]

/-- The body of validate_where at one node, with the recursive results taken
from validate_where itself: used to state a cheap unfolding equation. -/
def vwBody (lh rh : Str) (ow aw : Option Where) (db : Database)
    (headers : List Str) (table_name : Str) : Option Unit := do
  if headers.contains lh then
    let p ← splitQualified table_name lh
    let ltab ← db.get_table p.1
    let lc ← ltab.get_column p.2
    let _ ←
      if headers.contains rh then do
        let pr ← splitQualified p.1 rh
        if (db.tables.map Table.name).contains pr.1 then do
          let rtab ← db.get_table pr.1
          let rc ← rtab.get_column pr.2
          if lc.type == rc.type then some () else none
        else none
      else
        match lc.type with
        | .str =>
          match is_quoted_string rh with
          | some true => some ()
          | _ => none
        | .int => if (pyInt rh).isSome then some () else none
        | .float => if (pyFloat rh).isSome then some () else none
        | .datetime =>
          match is_quoted_string rh with
          | some true =>
            if (parseISO (pyStripChars (pyStripChars rh dquoteChar) squoteChar)).isSome
            then some () else none
          | _ => none
    let _ ←
      match aw with
      | some a => validate_where a db headers table_name
      | none => some ()
    match ow with
    | some o => validate_where o db headers table_name
    | none => some ()
  else none

/-- The body of hasBadNode at one node, with the recursive results taken from
hasBadNode itself: used to state a cheap unfolding equation. -/
def hbBody (db : Database) (headers : List Str) (table_name : Str)
    (l r o : Str) (ow aw : Option Where) : Bool :=
  badStrLiteralB db headers table_name (Where.mk l r o ow aw) ||
  (match aw with
   | some a => hasBadNode db headers table_name a
   | none => false) ||
  (match ow with
   | some o2 => hasBadNode db headers table_name o2
   | none => false)


/-- The body of noNeqOp at one node, with the recursive results taken from
noNeqOp itself: used to state a cheap unfolding equation. -/
def noNeqBody (o : Str) (ow aw : Option Where) : Bool :=
  (o != opNe) &&
  (match ow with
   | some o2 => o2.noNeqOp
   | none => true) &&
  (match aw with
   | some a => a.noNeqOp
   | none => true)

/-- A second demonstration table orders(__id int, item str, uid int), used
to exercise validation of joined SELECTs. -/
def ordersTable : Table :=
  Table.mk ("orders".toList)
    [Column.mk idColName ColumnType.int,
     Column.mk ("item".toList) ColumnType.str,
     Column.mk ("uid".toList) ColumnType.int]
    ("orders.csv".toList) 1

/-- A two-table catalog for the joined demonstration. -/
def joinDb : Database := Database.mk ("demo2".toList) [usersTable, ordersTable]

/-- The comparison users.name = bo against the joined header set: a str
column (qualified) against an unquoted literal. -/
def joinBadWhere : Where :=
  Where.mk ("users.name".toList) ("bo".toList) opEq none none

/-- SELECT * FROM users JOIN orders ON users.__id = orders.uid
WHERE users.name = bo, as parsed. -/
def joinSelect : Select :=
  Select.mk [starStr] ("users".toList) (some ("orders".toList))
    (some (Where.mk ("users.__id".toList) ("orders.uid".toList) opEq none none))
    (some joinBadWhere) none none

theorem natDigitsAux_congr (n : Nat) : ∀ (f1 f2 : Nat), n < f1 → n < f2 →
    natDigitsAux f1 n = natDigitsAux f2 n := by
  induction n using Nat.strong_induction_on with
  | _ n ih =>
    intro f1 f2 h1 h2
    cases f1 with
    | zero => omega
    | succ g1 =>
      cases f2 with
      | zero => omega
      | succ g2 =>
        simp only [natDigitsAux]
        by_cases hn : n < 10
        · rw [if_pos hn, if_pos hn]
        · rw [if_neg hn, if_neg hn]
          have hd : n / 10 < n := Nat.div_lt_self (by omega) (by omega)
          rw [ih (n / 10) hd g1 g2 (by omega) (by omega)]

theorem natDigits_eq (n : Nat) : natDigits n =
    if n < 10 then [digitChar n] else natDigits (n / 10) ++ [digitChar (n % 10)] := by
  have hstep : natDigitsAux (n + 1) n =
      if n < 10 then [digitChar n] else natDigitsAux n (n / 10) ++ [digitChar (n % 10)] := rfl
  rw [natDigits, hstep]
  by_cases hn : n < 10
  · rw [if_pos hn, if_pos hn]
  · rw [if_neg hn, if_neg hn]
    have hd : n / 10 < n := Nat.div_lt_self (by omega) (by omega)
    rw [natDigits, natDigitsAux_congr (n / 10) n (n / 10 + 1) (by omega) (by omega)]

theorem pySplit1Aux_congr (c : Char) (cs : Str) (k : Nat) : ∀ (s : Str), s.length ≤ k →
    ∀ (f1 f2 : Nat), s.length < f1 → s.length < f2 →
    pySplit1Aux c cs f1 s = pySplit1Aux c cs f2 s := by
  induction k with
  | zero =>
    intro s hs f1 f2 h1 h2
    have hnil : s = [] := List.eq_nil_of_length_eq_zero (by omega)
    subst hnil
    cases f1 with
    | zero => omega
    | succ g1 =>
      cases f2 with
      | zero => omega
      | succ g2 => rfl
  | succ m ih =>
    intro s hs f1 f2 h1 h2
    cases s with
    | nil =>
      cases f1 with
      | zero => omega
      | succ g1 =>
        cases f2 with
        | zero => omega
        | succ g2 => rfl
    | cons a rest =>
      cases f1 with
      | zero => omega
      | succ g1 =>
        cases f2 with
        | zero => omega
        | succ g2 =>
          simp only [pySplit1Aux]
          have hlen : rest.length ≤ m := by
            simp only [List.length_cons] at hs
            omega
          have hg1 : rest.length < g1 := by
            simp only [List.length_cons] at h1
            omega
          have hg2 : rest.length < g2 := by
            simp only [List.length_cons] at h2
            omega
          have hdlen : ((a :: rest).drop (cs.length + 1)).length = rest.length - cs.length := by
            simp only [List.length_drop, List.length_cons]
            omega
          have hdl : ((a :: rest).drop (cs.length + 1)).length ≤ m := by
            rw [hdlen]
            omega
          by_cases hp : (c :: cs).isPrefixOf (a :: rest) = true
          · rw [if_pos hp, if_pos hp]
            rw [ih ((a :: rest).drop (cs.length + 1)) hdl g1 g2 (by rw [hdlen]; omega)
              (by rw [hdlen]; omega)]
          · rw [if_neg hp, if_neg hp]
            rw [ih rest hlen g1 g2 hg1 hg2]

theorem pySplit1_eq (c : Char) (cs : Str) (s : Str) : pySplit1 c cs s =
    match s with
    | [] => [[]]
    | a :: rest =>
      if (c :: cs).isPrefixOf (a :: rest) then
        [] :: pySplit1 c cs ((a :: rest).drop (cs.length + 1))
      else
        match pySplit1 c cs rest with
        | [] => [[a]]
        | h :: t => (a :: h) :: t := by
  cases s with
  | nil => rfl
  | cons a rest =>
    have hstep : pySplit1 c cs (a :: rest) =
        if (c :: cs).isPrefixOf (a :: rest) then
          [] :: pySplit1Aux c cs (rest.length + 1) ((a :: rest).drop (cs.length + 1))
        else
          match pySplit1Aux c cs (rest.length + 1) rest with
          | [] => [[a]]
          | h :: t => (a :: h) :: t := rfl
    rw [hstep]
    have he : pySplit1Aux c cs (rest.length + 1) rest = pySplit1 c cs rest := rfl
    have hdlen : ((a :: rest).drop (cs.length + 1)).length = rest.length - cs.length := by
      simp only [List.length_drop, List.length_cons]
      omega
    have hd : pySplit1Aux c cs (rest.length + 1) ((a :: rest).drop (cs.length + 1))
        = pySplit1 c cs ((a :: rest).drop (cs.length + 1)) := by
      rw [pySplit1]
      exact pySplit1Aux_congr c cs ((a :: rest).drop (cs.length + 1)).length _ (le_refl _)
        (rest.length + 1) (((a :: rest).drop (cs.length + 1)).length + 1)
        (by rw [hdlen]; omega) (by omega)
    rw [he, hd]

theorem countSub1Aux_congr (c : Char) (cs : Str) (k : Nat) : ∀ (s : Str), s.length ≤ k →
    ∀ (f1 f2 : Nat), s.length < f1 → s.length < f2 →
    countSub1Aux c cs f1 s = countSub1Aux c cs f2 s := by
  induction k with
  | zero =>
    intro s hs f1 f2 h1 h2
    have hnil : s = [] := List.eq_nil_of_length_eq_zero (by omega)
    subst hnil
    cases f1 with
    | zero => omega
    | succ g1 =>
      cases f2 with
      | zero => omega
      | succ g2 => rfl
  | succ m ih =>
    intro s hs f1 f2 h1 h2
    cases s with
    | nil =>
      cases f1 with
      | zero => omega
      | succ g1 =>
        cases f2 with
        | zero => omega
        | succ g2 => rfl
    | cons a rest =>
      cases f1 with
      | zero => omega
      | succ g1 =>
        cases f2 with
        | zero => omega
        | succ g2 =>
          simp only [countSub1Aux]
          have hlen : rest.length ≤ m := by
            simp only [List.length_cons] at hs
            omega
          have hg1 : rest.length < g1 := by
            simp only [List.length_cons] at h1
            omega
          have hg2 : rest.length < g2 := by
            simp only [List.length_cons] at h2
            omega
          have hdlen : ((a :: rest).drop (cs.length + 1)).length = rest.length - cs.length := by
            simp only [List.length_drop, List.length_cons]
            omega
          have hdl : ((a :: rest).drop (cs.length + 1)).length ≤ m := by
            rw [hdlen]
            omega
          by_cases hp : (c :: cs).isPrefixOf (a :: rest) = true
          · rw [if_pos hp, if_pos hp]
            rw [ih ((a :: rest).drop (cs.length + 1)) hdl g1 g2 (by rw [hdlen]; omega)
              (by rw [hdlen]; omega)]
          · rw [if_neg hp, if_neg hp]
            rw [ih rest hlen g1 g2 hg1 hg2]

theorem countSub1_eq (c : Char) (cs : Str) (s : Str) : countSub1 c cs s =
    match s with
    | [] => 0
    | a :: rest =>
      if (c :: cs).isPrefixOf (a :: rest) then
        countSub1 c cs ((a :: rest).drop (cs.length + 1)) + 1
      else
        countSub1 c cs rest := by
  cases s with
  | nil => rfl
  | cons a rest =>
    have hstep : countSub1 c cs (a :: rest) =
        if (c :: cs).isPrefixOf (a :: rest) then
          countSub1Aux c cs (rest.length + 1) ((a :: rest).drop (cs.length + 1)) + 1
        else
          countSub1Aux c cs (rest.length + 1) rest := rfl
    rw [hstep]
    have he : countSub1Aux c cs (rest.length + 1) rest = countSub1 c cs rest := rfl
    have hdlen : ((a :: rest).drop (cs.length + 1)).length = rest.length - cs.length := by
      simp only [List.length_drop, List.length_cons]
      omega
    have hd : countSub1Aux c cs (rest.length + 1) ((a :: rest).drop (cs.length + 1))
        = countSub1 c cs ((a :: rest).drop (cs.length + 1)) := by
      rw [countSub1]
      exact countSub1Aux_congr c cs ((a :: rest).drop (cs.length + 1)).length _ (le_refl _)
        (rest.length + 1) (((a :: rest).drop (cs.length + 1)).length + 1)
        (by rw [hdlen]; omega) (by omega)
    rw [he, hd]

theorem char_toNat_inj {c d : Char} (h : c.toNat = d.toNat) : c = d := by
  have := congrArg Char.ofNat h
  rwa [Char.ofNat_toNat, Char.ofNat_toNat] at this

theorem head?_dropWhile_false {α : Type} (p : α → Bool) (l : List α) (a : α)
    (h : (l.dropWhile p).head? = some a) : p a = false := by
  induction l with
  | nil => simp [List.dropWhile] at h
  | cons x xs ih =>
    rw [List.dropWhile_cons] at h
    by_cases hp : p x
    · simp [hp] at h; exact ih h
    · simp [hp] at h; subst h; simpa using hp

theorem getLast?_suffix_eq {α : Type} {l2 l1 : List α} (h : l2 <:+ l1) (hne : l2 ≠ []) :
    l2.getLast? = l1.getLast? := by
  obtain ⟨pre, rfl⟩ := h
  exact (List.getLast?_append_of_ne_nil pre hne).symm

theorem lstrip_eq_self {s : Str} (h : ∀ a, s.head? = some a → isPySpace a = false) :
    lstrip s = s := by
  cases s with
  | nil => rfl
  | cons x xs =>
    have hx := h x rfl
    simp [lstrip, List.dropWhile_cons, hx]

theorem rstrip_eq_self {s : Str} (h : ∀ b, s.getLast? = some b → isPySpace b = false) :
    rstrip s = s := by
  cases hs : s.reverse with
  | nil =>
    have : s = [] := by simpa using congrArg List.reverse hs
    simp [this, rstrip]
  | cons x xs =>
    have hx : s.getLast? = some x := by
      rw [← List.head?_reverse, hs]; rfl
    have hxs := h x hx
    rw [rstrip, hs, List.dropWhile_cons, hxs]
    simp only [Bool.false_eq_true, if_false]
    rw [← hs, List.reverse_reverse]

theorem pystrip_eq_self {s : Str}
    (h1 : ∀ a, s.head? = some a → isPySpace a = false)
    (h2 : ∀ b, s.getLast? = some b → isPySpace b = false) :
    pystrip s = s := by
  rw [pystrip, rstrip_eq_self h2, lstrip_eq_self h1]

theorem pystrip_eq_self_of_all {s : Str} (h : ∀ c ∈ s, isPySpace c = false) :
    pystrip s = s :=
  pystrip_eq_self
    (fun a ha => h a (List.mem_of_mem_head? ha))
    (fun b hb => h b (List.mem_of_mem_getLast? hb))

theorem lstrip_cons_space (s : Str) : lstrip (' ' :: s) = lstrip s := by
  rw [lstrip, List.dropWhile_cons]
  have h : isPySpace ' ' = true := rfl
  rw [h]
  simp only [if_true]
  rfl

theorem rstrip_append_space {s : Str} : rstrip (s ++ [' ']) = rstrip s := by
  have h1 : (s ++ [' ']).reverse = ' ' :: s.reverse := by simp
  rw [rstrip, h1, List.dropWhile_cons]
  have h2 : isPySpace ' ' = true := rfl
  rw [h2]
  simp only [if_true]
  rfl

theorem pystrip_append_space {s : Str} : pystrip (s ++ [' ']) = pystrip s := by
  rw [pystrip, rstrip_append_space]; rfl

theorem pystrip_cons_space {s : Str}
    (h2 : ∀ b, s.getLast? = some b → isPySpace b = false) :
    pystrip (' ' :: s) = pystrip s := by
  cases hs : s.reverse with
  | nil =>
    have hnil : s = [] := by simpa using congrArg List.reverse hs
    subst hnil
    rfl
  | cons x xs =>
    have hx : s.getLast? = some x := by
      rw [← List.head?_reverse, hs]; rfl
    have hxs := h2 x hx
    have hr : rstrip (' ' :: s) = ' ' :: rstrip s := by
      have hrev : (' ' :: s).reverse = s.reverse ++ [' '] := by simp
      rw [rstrip, hrev, hs, List.cons_append, List.dropWhile_cons]
      rw [hxs]
      simp only [Bool.false_eq_true, if_false]
      have : rstrip s = (List.dropWhile isPySpace (x :: xs)).reverse := by
        rw [rstrip, hs]
      rw [this]
      simp [List.dropWhile_cons, hxs]
    rw [pystrip, hr, lstrip_cons_space, pystrip]

theorem head?_lstrip_false {s : Str} {a : Char} (h : (lstrip s).head? = some a) :
    isPySpace a = false :=
  head?_dropWhile_false _ _ _ h

theorem getLast?_rstrip_false {s : Str} {b : Char} (h : (rstrip s).getLast? = some b) :
    isPySpace b = false := by
  rw [rstrip, List.getLast?_reverse] at h
  exact head?_dropWhile_false _ _ _ h

theorem lstrip_suffix (s : Str) : lstrip s <:+ s :=
  List.dropWhile_suffix _

theorem pystrip_idem (s : Str) : pystrip (pystrip s) = pystrip s := by
  apply pystrip_eq_self
  · intro a ha
    exact head?_lstrip_false ha
  · intro b hb
    have hne : lstrip (rstrip s) ≠ [] := by
      intro hnil
      rw [pystrip, hnil] at hb
      simp at hb
    have := getLast?_suffix_eq (lstrip_suffix (rstrip s)) hne
    rw [pystrip] at hb
    rw [this] at hb
    exact getLast?_rstrip_false hb

theorem digitChar_toNat (n : Nat) : (digitChar n).toNat = 48 + n % 10 := rfl

theorem isDigitChar_digitChar (n : Nat) : isDigitChar (digitChar n) = true := by
  simp only [isDigitChar, digitChar_toNat, Bool.and_eq_true, decide_eq_true_eq]
  omega

theorem digitVal_digitChar {n : Nat} (h : n < 10) : digitVal (digitChar n) = n := by
  simp only [digitVal, digitChar_toNat]
  omega

theorem natDigits_ne_nil (n : Nat) : natDigits n ≠ [] := by
  rw [natDigits_eq]
  split <;> simp

theorem natDigits_all_digits (n : Nat) : ∀ c ∈ natDigits n, isDigitChar c = true := by
  induction n using Nat.strong_induction_on with
  | _ n ih =>
    rw [natDigits_eq]
    split
    · intro c hc
      simp at hc
      subst hc
      exact isDigitChar_digitChar n
    · intro c hc
      rcases List.mem_append.mp hc with h1 | h2
      · exact ih (n / 10) (Nat.div_lt_self (by omega) (by omega)) c h1
      · simp at h2
        subst h2
        exact isDigitChar_digitChar (n % 10)

theorem valOfDigits_append_one (xs : Str) (c : Char) :
    valOfDigits (xs ++ [c]) = valOfDigits xs * 10 + digitVal c := by
  simp [valOfDigits, List.foldl_append]

theorem valOfDigits_natDigits (n : Nat) : valOfDigits (natDigits n) = n := by
  induction n using Nat.strong_induction_on with
  | _ n ih =>
    rw [natDigits_eq]
    split
    · next h =>
      simp [valOfDigits, digitVal_digitChar h]
    · next h =>
      rw [valOfDigits_append_one, ih (n / 10) (Nat.div_lt_self (by omega) (by omega)),
        digitVal_digitChar (Nat.mod_lt _ (by omega))]
      omega

theorem digitsVal_natDigits (n : Nat) : digitsVal (natDigits n) = some n := by
  have h1 := natDigits_ne_nil n
  have h2 := natDigits_all_digits n
  simp only [digitsVal, List.isEmpty_iff, h1, if_false, List.all_eq_true]
  rw [if_pos (by intro c hc; simpa using h2 c hc), valOfDigits_natDigits]

theorem isDigitChar_not_space {c : Char} (h : isDigitChar c = true) : isPySpace c = false := by
  simp only [isDigitChar, Bool.and_eq_true, decide_eq_true_eq] at h
  by_contra hs
  rw [Bool.not_eq_false] at hs
  simp only [isPySpace, Bool.or_eq_true, beq_iff_eq] at hs
  rcases hs with ((((h1 | h1) | h1) | h1) | h1) | h1 <;>
    (subst h1; exact absurd h (by decide))

theorem natDigits_not_space (n : Nat) : ∀ c ∈ natDigits n, isPySpace c = false :=
  fun c hc => isDigitChar_not_space (natDigits_all_digits n c hc)

theorem valOfDigits_cons_zero (ds : Str) : valOfDigits ('0' :: ds) = valOfDigits ds := rfl

theorem valOfDigits_replicate_zero (k : Nat) (ds : Str) :
    valOfDigits (List.replicate k '0' ++ ds) = valOfDigits ds := by
  induction k with
  | zero => rfl
  | succ m ih => simpa [List.replicate_succ] using ih

theorem natDigits_length_le {n k : Nat} (hk : 1 ≤ k) (h : n < 10 ^ k) :
    (natDigits n).length ≤ k := by
  induction n using Nat.strong_induction_on generalizing k with
  | _ n ih =>
    rw [natDigits_eq]
    split
    · simpa using hk
    · next hn =>
      have hk2 : 2 ≤ k := by
        by_contra hcon
        interval_cases k
        · omega
      have hdiv : n / 10 < 10 ^ (k - 1) := by
        have : n < 10 ^ (k - 1) * 10 := by
          have : 10 ^ (k - 1) * 10 = 10 ^ k := by
            have : k - 1 + 1 = k := by omega
            calc 10 ^ (k - 1) * 10 = 10 ^ (k - 1 + 1) := by ring
              _ = 10 ^ k := by rw [this]
          omega
        omega
      have := ih (n / 10) (Nat.div_lt_self (by omega) (by omega)) (by omega) hdiv
      simp only [List.length_append, List.length_cons, List.length_nil]
      omega

theorem padNat_length {w n : Nat} (h : (natDigits n).length ≤ w) :
    (padNat w n).length = w := by
  simp [padNat]
  omega

theorem padNat_all_digits (w n : Nat) : ∀ c ∈ padNat w n, isDigitChar c = true := by
  intro c hc
  rcases List.mem_append.mp hc with h1 | h2
  · have := List.eq_of_mem_replicate h1
    subst this
    rfl
  · exact natDigits_all_digits n c h2

theorem valOfDigits_padNat (w n : Nat) : valOfDigits (padNat w n) = n := by
  rw [padNat, valOfDigits_replicate_zero, valOfDigits_natDigits]

theorem fixedDigits_padNat {w n : Nat} (hw : 1 ≤ w) (h : n < 10 ^ w) :
    fixedDigits w (padNat w n) = some n := by
  rw [fixedDigits, if_pos, valOfDigits_padNat]
  refine Bool.and_eq_true_iff.mpr ⟨?_, ?_⟩
  · simp [padNat_length (natDigits_length_le hw h)]
  · rw [List.all_eq_true]
    intro c hc
    exact padNat_all_digits w n c hc

theorem formatInt_not_space (k : Int) : ∀ c ∈ formatInt k, isPySpace c = false := by
  intro c hc
  rw [formatInt] at hc
  split at hc
  · rcases List.mem_cons.mp hc with h1 | h2
    · subst h1; rfl
    · exact natDigits_not_space _ c h2
  · exact natDigits_not_space _ c hc

theorem digit_head_sign_false (a : Nat) (c : Char) (sgn : Char) (hsgn : sgn.toNat < 48)
    (hd : c ∈ natDigits a) : (c == sgn) = false := by
  have hdig := natDigits_all_digits a c hd
  simp only [isDigitChar, Bool.and_eq_true, decide_eq_true_eq] at hdig
  rw [beq_eq_false_iff_ne]
  intro he
  subst he
  omega

theorem pyInt_formatInt (k : Int) : pyInt (formatInt k) = some k := by
  have hstrip : pystrip (formatInt k) = formatInt k :=
    pystrip_eq_self_of_all (formatInt_not_space k)
  rw [pyInt]
  simp only [hstrip]
  by_cases hk : k < 0
  · rw [formatInt, if_pos hk]
    have h1 : ((('-' :: natDigits k.natAbs : Str)).head? == some '+') = false := rfl
    have h2 : ((('-' :: natDigits k.natAbs : Str)).head? == some '-') = true := rfl
    rw [h1, h2]
    simp only [Bool.false_eq_true, if_false, if_true, List.drop_succ_cons, List.drop_zero,
      digitsVal_natDigits]
    simp only [Option.bind_eq_bind, Option.some_bind, Option.pure_def, Option.map_some,
      Option.map_some', Option.some.injEq]
    omega
  · rw [formatInt, if_neg hk]
    cases hnd : natDigits k.natAbs with
    | nil => exact absurd hnd (natDigits_ne_nil _)
    | cons c cs =>
      have hcmem : c ∈ natDigits k.natAbs := by rw [hnd]; exact List.mem_cons_self c cs
      have h1 : (((c :: cs : Str)).head? == some '+') = false := by
        rw [List.head?_cons]
        have := digit_head_sign_false k.natAbs c '+' (by decide) hcmem
        simp only [beq_eq_false_iff_ne] at this ⊢
        intro hcon
        exact this (by injection hcon)
      have h2 : (((c :: cs : Str)).head? == some '-') = false := by
        rw [List.head?_cons]
        have := digit_head_sign_false k.natAbs c '-' (by decide) hcmem
        simp only [beq_eq_false_iff_ne] at this ⊢
        intro hcon
        exact this (by injection hcon)
      rw [h1, h2]
      simp only [Bool.false_eq_true, if_false, ← hnd, digitsVal_natDigits]
      simp only [Option.bind_eq_bind, Option.some_bind, Option.pure_def, Option.map_some,
        Option.map_some', Option.some.injEq]
      omega

theorem parseISO_isoformat {d : DateTime} (hv : validDT d = true) :
    parseISO d.isoformat = some d := by
  obtain ⟨y, mo, dd, hh, mi, ss⟩ := d
  simp only [validDT, Bool.and_eq_true, decide_eq_true_eq] at hv
  obtain ⟨⟨⟨⟨⟨⟨⟨⟨h1, h2⟩, h3⟩, h4⟩, h5⟩, h6⟩, h7⟩, h8⟩, h9⟩ := hv
  have lA : (padNat 4 y).length = 4 :=
    padNat_length (natDigits_length_le (by omega) (by omega))
  have lB : (padNat 2 mo).length = 2 :=
    padNat_length (natDigits_length_le (by omega) (by omega))
  have lC : (padNat 2 dd).length = 2 := by
    refine padNat_length (natDigits_length_le (by omega) ?_)
    have : daysInMonth y mo ≤ 31 := by
      rw [daysInMonth]
      split
      · split <;> omega
      · split <;> omega
    omega
  have lD : (padNat 2 hh).length = 2 :=
    padNat_length (natDigits_length_le (by omega) (by omega))
  have lE : (padNat 2 mi).length = 2 :=
    padNat_length (natDigits_length_le (by omega) (by omega))
  have hday : dd < 100 := by
    have : daysInMonth y mo ≤ 31 := by
      rw [daysInMonth]
      split
      · split <;> omega
      · split <;> omega
    omega
  rw [DateTime.isoformat, parseISO]
  dsimp only
  rw [List.take_left' lA, List.drop_left' lA]
  rw [fixedDigits_padNat (by omega) (by omega : y < 10 ^ 4)]
  simp only [Option.bind_eq_bind, Option.some_bind]
  rw [List.take_left' lB, List.drop_left' lB]
  rw [fixedDigits_padNat (by omega) (by omega : mo < 10 ^ 2)]
  simp only [Option.some_bind]
  rw [List.take_left' lC, List.drop_left' lC]
  rw [fixedDigits_padNat (by omega) (by omega : dd < 10 ^ 2)]
  simp only [Option.some_bind]
  rw [if_pos (show ((decide True || decide (('T' : Char) = ' '))) = true by decide)]
  rw [List.take_left' lD, List.drop_left' lD]
  rw [fixedDigits_padNat (by omega) (by omega : hh < 10 ^ 2)]
  simp only [Option.some_bind]
  rw [List.take_left' lE, List.drop_left' lE]
  rw [fixedDigits_padNat (by omega) (by omega : mi < 10 ^ 2)]
  simp only [Option.some_bind]
  rw [fixedDigits_padNat (by omega) (by omega : ss < 10 ^ 2)]
  simp only [Option.some_bind]
  rw [if_pos]
  simp only [validDT, Bool.and_eq_true, decide_eq_true_eq]
  refine ⟨⟨⟨⟨⟨⟨⟨⟨h1, h2⟩, h3⟩, h4⟩, h5⟩, h6⟩, h7⟩, h8⟩, h9⟩

theorem takeWhile_all_append {p : Char → Bool} {xs : Str} {y : Char} {ys : Str}
    (hxs : ∀ c ∈ xs, p c = true) (hy : p y = false) :
    (xs ++ y :: ys).takeWhile p = xs := by
  induction xs with
  | nil => simp [List.takeWhile_cons, hy]
  | cons a as ih =>
    have ha := hxs a (by simp)
    simp only [List.cons_append, List.takeWhile_cons, ha, if_true]
    rw [ih (fun c hc => hxs c (by simp [hc]))]

theorem dropWhile_all_append {p : Char → Bool} {xs : Str} {y : Char} {ys : Str}
    (hxs : ∀ c ∈ xs, p c = true) (hy : p y = false) :
    (xs ++ y :: ys).dropWhile p = y :: ys := by
  induction xs with
  | nil => simp [List.dropWhile_cons, hy]
  | cons a as ih =>
    have ha := hxs a (by simp)
    simp only [List.cons_append, List.dropWhile_cons, ha, if_true]
    exact ih (fun c hc => hxs c (by simp [hc]))

theorem takeWhile_all {p : Char → Bool} {xs : Str} (hxs : ∀ c ∈ xs, p c = true) :
    xs.takeWhile p = xs := by
  induction xs with
  | nil => rfl
  | cons a as ih =>
    have ha := hxs a (by simp)
    simp only [List.takeWhile_cons, ha, if_true]
    rw [ih (fun c hc => hxs c (by simp [hc]))]

theorem dropWhile_all {p : Char → Bool} {xs : Str} (hxs : ∀ c ∈ xs, p c = true) :
    xs.dropWhile p = [] := by
  induction xs with
  | nil => rfl
  | cons a as ih =>
    have ha := hxs a (by simp)
    simp only [List.dropWhile_cons, ha, if_true]
    exact ih (fun c hc => hxs c (by simp [hc]))

theorem roundHalfEven_intCast (n : Int) : roundHalfEven (n : Rat) = n := by
  rw [roundHalfEven]
  simp only [Int.floor_intCast]
  rw [if_pos]
  rw [sub_self]
  norm_num

theorem padNat_not_space (w m : Nat) : ∀ c ∈ padNat w m, isPySpace c = false :=
  fun c hc => isDigitChar_not_space (padNat_all_digits w m c hc)

theorem formatFloat4_not_space (q : Rat) : ∀ c ∈ formatFloat4 q, isPySpace c = false := by
  intro c hc
  rw [formatFloat4] at hc
  simp only [List.append_assoc, List.mem_append, List.mem_cons] at hc
  rcases hc with h1 | h2 | h3 | h4
  · split at h1
    · simp at h1; subst h1; rfl
    · simp at h1
  · exact natDigits_not_space _ c h2
  · subst h3; rfl
  · exact padNat_not_space _ _ c h4

theorem num_cast_of_den_one {x : Rat} (h : x.den = 1) : (x.num : Rat) = x := by
  have := Rat.num_div_den x
  rw [h] at this
  simpa using this

theorem pyFloat_formatFloat4 {q : Rat} (hden : (q * 10000).den = 1) :
    pyFloat (formatFloat4 q) = some q := by
  have hq : (((q * 10000).num : Int) : Rat) = q * 10000 := num_cast_of_den_one hden
  have hr : roundHalfEven (q * 10000) = (q * 10000).num := by
    conv_lhs => rw [← hq]
    rw [roundHalfEven_intCast]
  have hstrip : pystrip (formatFloat4 q) = formatFloat4 q :=
    pystrip_eq_self_of_all (formatFloat4_not_space q)
  rw [pyFloat]
  simp only [hstrip]
  rw [formatFloat4, hr]
  set n := (q * 10000).num with hndef
  set a := n.natAbs with hadef
  have hmod : a % 10000 < 10000 := Nat.mod_lt _ (by omega)
  have hfl : (padNat 4 (a % 10000)).length = 4 :=
    padNat_length (natDigits_length_le (by omega) (by omega))
  have htake : (natDigits (a / 10000) ++ '.' :: padNat 4 (a % 10000)).takeWhile isDigitChar
      = natDigits (a / 10000) :=
    takeWhile_all_append (natDigits_all_digits _) (by decide)
  have hdrop : (natDigits (a / 10000) ++ '.' :: padNat 4 (a % 10000)).dropWhile isDigitChar
      = '.' :: padNat 4 (a % 10000) :=
    dropWhile_all_append (natDigits_all_digits _) (by decide)
  have htake2 : (padNat 4 (a % 10000)).takeWhile isDigitChar = padNat 4 (a % 10000) :=
    takeWhile_all (padNat_all_digits _ _)
  have hdrop2 : (padNat 4 (a % 10000)).dropWhile isDigitChar = [] :=
    dropWhile_all (padNat_all_digits _ _)
  have hqval : q = (n : Rat) / 10000 := by
    rw [hq]
    field_simp
  have hkey : ((a / 10000 : Nat) : Rat) + ((a % 10000 : Nat) : Rat) / 10 ^ 4 = (a : Rat) / 10000 := by
    have h1 : ((a / 10000) * 10000 + a % 10000 : Nat) = a := by omega
    have h2 : ((a / 10000 : Nat) : Rat) * 10000 + ((a % 10000 : Nat) : Rat) = (a : Rat) := by
      exact_mod_cast congrArg (Nat.cast : Nat → Rat) h1
    have h3 : ((10 : Rat) ^ 4) = 10000 := by norm_num
    rw [h3]
    field_simp
    linarith
  have c5 : (natDigits (a / 10000)).isEmpty = false := by
    cases hnd : natDigits (a / 10000) with
    | nil => exact absurd hnd (natDigits_ne_nil _)
    | cons x xs => rfl
  have c3 : ((('.' :: padNat 4 (a % 10000) : Str)).head? == some '.') = true := rfl
  have c4 : parseExp [] = some (0 : Int) := rfl
  by_cases hneg : n < 0
  · rw [if_pos hneg]
    have hb : (['-'] ++ natDigits (a / 10000)) ++ '.' :: padNat 4 (a % 10000)
        = '-' :: (natDigits (a / 10000) ++ '.' :: padNat 4 (a % 10000)) := by simp
    rw [hb]
    have c1 : ((('-' :: (natDigits (a / 10000) ++ '.' :: padNat 4 (a % 10000)) : Str)).head?
        == some '+') = false := rfl
    have c2 : ((('-' :: (natDigits (a / 10000) ++ '.' :: padNat 4 (a % 10000)) : Str)).head?
        == some '-') = true := rfl
    rw [c1, c2]
    simp only [Bool.false_eq_true, if_false, if_true, List.drop_succ_cons, List.drop_zero]
    rw [htake, hdrop, c3]
    simp only [if_true, List.drop_succ_cons, List.drop_zero]
    rw [htake2, hdrop2, c4]
    simp only [c5, Bool.false_and, Bool.false_eq_true, if_false]
    rw [hfl, valOfDigits_natDigits, valOfDigits_padNat]
    congr 1
    have hint : (a : Int) = -n := by omega
    have hna : (a : Rat) = -(n : Rat) := by exact_mod_cast congrArg (Int.cast : Int → Rat) hint
    rw [hqval, zpow_zero, mul_one, hkey, hna]
    ring
  · rw [if_neg hneg]
    simp only [List.nil_append]
    obtain ⟨c, cs, hnd⟩ : ∃ c cs, natDigits (a / 10000) = c :: cs := by
      cases hx : natDigits (a / 10000) with
      | nil => exact absurd hx (natDigits_ne_nil _)
      | cons x xs => exact ⟨x, xs, rfl⟩
    have hcmem : c ∈ natDigits (a / 10000) := by rw [hnd]; exact List.mem_cons_self c cs
    have c1 : (((natDigits (a / 10000) ++ '.' :: padNat 4 (a % 10000) : Str)).head?
        == some '+') = false := by
      rw [hnd, List.cons_append, List.head?_cons]
      have := digit_head_sign_false (a / 10000) c '+' (by decide) hcmem
      simp only [beq_eq_false_iff_ne] at this ⊢
      intro hcon
      exact this (by injection hcon)
    have c2 : (((natDigits (a / 10000) ++ '.' :: padNat 4 (a % 10000) : Str)).head?
        == some '-') = false := by
      rw [hnd, List.cons_append, List.head?_cons]
      have := digit_head_sign_false (a / 10000) c '-' (by decide) hcmem
      simp only [beq_eq_false_iff_ne] at this ⊢
      intro hcon
      exact this (by injection hcon)
    rw [c1, c2]
    simp only [Bool.false_eq_true, if_false]
    rw [htake, hdrop, c3]
    simp only [if_true, List.drop_succ_cons, List.drop_zero]
    rw [htake2, hdrop2, c4]
    simp only [c5, Bool.false_and, Bool.false_eq_true, if_false]
    rw [hfl, valOfDigits_natDigits, valOfDigits_padNat]
    congr 1
    have hint : (a : Int) = n := by omega
    have hna : (a : Rat) = (n : Rat) := by exact_mod_cast congrArg (Int.cast : Int → Rat) hint
    rw [hqval, zpow_zero, mul_one, hkey, hna]
    ring

theorem digit_beq_low_false {c x : Char} (hc : isDigitChar c = true) (hx : x.toNat < 48) :
    (c == x) = false := by
  simp only [isDigitChar, Bool.and_eq_true, decide_eq_true_eq] at hc
  rw [beq_eq_false_iff_ne]
  intro he
  subst he
  omega

theorem formatInt_ne_nil (k : Int) : formatInt k ≠ [] := by
  rw [formatInt]
  split
  · simp
  · exact natDigits_ne_nil _

theorem isEmpty_false_of_ne_nil {l : Str} (h : l ≠ []) : l.isEmpty = false := by
  cases l with
  | nil => exact absurd rfl h
  | cons a as => rfl

theorem cellRT_int (nm : Str) (k : Int) :
    cellRoundTrips (Column.mk nm ColumnType.int) (formatInt k) = true := by
  rw [cellRoundTrips, parse_value]
  rw [if_neg (by rw [isEmpty_false_of_ne_nil (formatInt_ne_nil k)]; exact Bool.false_ne_true)]
  simp only [pyInt_formatInt, Option.map_some']
  simp [formatValue]

theorem formatFloat4_ne_nil (q : Rat) : formatFloat4 q ≠ [] := by
  rw [formatFloat4]
  intro hcon
  have := congrArg List.length hcon
  simp at this

theorem cellRT_float (nm : Str) {q : Rat} (h : (q * 10000).den = 1) :
    cellRoundTrips (Column.mk nm ColumnType.float) (formatFloat4 q) = true := by
  rw [cellRoundTrips, parse_value]
  rw [if_neg (by rw [isEmpty_false_of_ne_nil (formatFloat4_ne_nil q)]; exact Bool.false_ne_true)]
  simp only [pyFloat_formatFloat4 h, Option.map_some']
  simp [formatValue]

theorem cellRT_str (nm : Str) {s : Str} (hs : pystrip s = s)
    (hq : s = [] ∨ is_quoted_string s = some false) :
    cellRoundTrips (Column.mk nm ColumnType.str) s = true := by
  rcases hq with rfl | hq
  · rfl
  · have hne : s ≠ [] := by
      intro hcon
      subst hcon
      simp [is_quoted_string] at hq
    rw [cellRoundTrips, parse_value]
    rw [if_neg (by rw [isEmpty_false_of_ne_nil hne]; exact Bool.false_ne_true)]
    rw [unquote_string]
    simp only [hs, hq]
    simp [formatValue]

theorem padNat_ne_nil (w n : Nat) : padNat w n ≠ [] := by
  rw [padNat]
  intro hcon
  have h1 := congrArg List.length hcon
  simp only [List.length_append, List.length_replicate, List.length_nil] at h1
  have h2 : natDigits n = [] := List.eq_nil_of_length_eq_zero (by omega)
  exact natDigits_ne_nil n h2

theorem getLast?_cons_ne {α : Type} (a : α) {l : List α} (h : l ≠ []) :
    (a :: l).getLast? = l.getLast? := by
  cases l with
  | nil => exact absurd rfl h
  | cons b bs => exact List.getLast?_cons_cons

theorem append_ne_nil_right {α : Type} (x : List α) {y : List α} (h : y ≠ []) :
    x ++ y ≠ [] := by
  intro hcon
  cases y with
  | nil => exact h rfl
  | cons b bs => simp at hcon

theorem isoformat_not_space (d : DateTime) : ∀ c ∈ d.isoformat, isPySpace c = false := by
  intro c hc
  rw [DateTime.isoformat] at hc
  simp only [List.mem_append, List.mem_cons] at hc
  rcases hc with h | h | h | h | h | h | h | h | h | h | h
  all_goals first
    | (exact padNat_not_space _ _ c h)
    | (subst h; rfl)

theorem isoformat_head_digit (d : DateTime) :
    ∃ c, d.isoformat.head? = some c ∧ isDigitChar c = true := by
  rw [DateTime.isoformat]
  obtain ⟨c, cs, hc⟩ : ∃ c cs, padNat 4 d.year = c :: cs := by
    cases hx : padNat 4 d.year with
    | nil => exact absurd hx (padNat_ne_nil _ _)
    | cons x xs => exact ⟨x, xs, rfl⟩
  refine ⟨c, ?_, ?_⟩
  · rw [hc, List.cons_append, List.head?_cons]
  · exact padNat_all_digits 4 d.year c (by rw [hc]; exact List.mem_cons_self c cs)

theorem isoformat_getLast?_second (d : DateTime) :
    d.isoformat.getLast? = (padNat 2 d.second).getLast? := by
  rw [DateTime.isoformat]
  rw [List.getLast?_append_of_ne_nil _ (by simp)]
  rw [getLast?_cons_ne _ (append_ne_nil_right _ (by simp))]
  rw [List.getLast?_append_of_ne_nil _ (by simp)]
  rw [getLast?_cons_ne _ (append_ne_nil_right _ (by simp))]
  rw [List.getLast?_append_of_ne_nil _ (by simp)]
  rw [getLast?_cons_ne _ (append_ne_nil_right _ (by simp))]
  rw [List.getLast?_append_of_ne_nil _ (by simp)]
  rw [getLast?_cons_ne _ (append_ne_nil_right _ (by simp))]
  rw [List.getLast?_append_of_ne_nil _ (by simp)]
  rw [getLast?_cons_ne _ (padNat_ne_nil 2 d.second)]

theorem isoformat_last_digit (d : DateTime) :
    ∃ c, d.isoformat.getLast? = some c ∧ isDigitChar c = true := by
  rw [isoformat_getLast?_second]
  obtain ⟨c, hc⟩ : ∃ c, (padNat 2 d.second).getLast? = some c := by
    cases hx : padNat 2 d.second with
    | nil => exact absurd hx (padNat_ne_nil _ _)
    | cons x xs => exact ⟨(x :: xs).getLast (by simp), List.getLast?_eq_getLast _ _⟩
  exact ⟨c, hc, padNat_all_digits 2 d.second c (List.mem_of_mem_getLast? hc)⟩

theorem isoformat_ne_nil (d : DateTime) : d.isoformat ≠ [] := by
  rw [DateTime.isoformat]
  exact append_ne_nil_right _ (by simp)

theorem is_quoted_isoformat (d : DateTime) : is_quoted_string d.isoformat = some false := by
  obtain ⟨c1, hc1, hd1⟩ := isoformat_head_digit d
  obtain ⟨c2, hc2, hd2⟩ := isoformat_last_digit d
  rw [is_quoted_string, hc1, hc2]
  show some (c1 == dquoteChar && c2 == dquoteChar || c1 == squoteChar && c2 == squoteChar)
    = some false
  rw [digit_beq_low_false hd1 (by decide), digit_beq_low_false hd1 (by decide),
    Bool.false_and, Bool.false_and]
  rfl

theorem unquote_isoformat (d : DateTime) : unquote_string d.isoformat = some d.isoformat := by
  rw [unquote_string]
  have hs : pystrip d.isoformat = d.isoformat :=
    pystrip_eq_self_of_all (isoformat_not_space d)
  simp only [hs, is_quoted_isoformat d]

theorem cellRT_datetime (nm : Str) {d : DateTime} (h : validDT d = true) :
    cellRoundTrips (Column.mk nm ColumnType.datetime) d.isoformat = true := by
  rw [cellRoundTrips, parse_value]
  rw [if_neg (by rw [isEmpty_false_of_ne_nil (isoformat_ne_nil d)]; exact Bool.false_ne_true)]
  simp only [unquote_isoformat d, Option.bind_some, Option.some_bind, parseISO_isoformat h,
    Option.map_some']
  simp [formatValue]

theorem cellRoundTrips_elim {col : Column} {cell : Str} (h : cellRoundTrips col cell = true) :
    ∃ v, parse_value cell col = some v ∧ formatValue v = cell := by
  rw [cellRoundTrips] at h
  cases hpv : parse_value cell col with
  | none => rw [hpv] at h; exact absurd h (by simp)
  | some v =>
    rw [hpv] at h
    exact ⟨v, rfl, by simpa using h⟩

theorem readRow_canon {cols : List Column} : ∀ (line : List Str) (i : Nat),
    rowCanon line (cols.drop i) = true →
    ∃ r, readRow cols line i = some r ∧ r.map formatValue = line := by
  intro line
  induction line with
  | nil => exact fun i _ => ⟨[], rfl, rfl⟩
  | cons cell cs ih =>
    intro i hc
    cases hdrop : cols.drop i with
    | nil => rw [hdrop] at hc; exact absurd hc (by simp [rowCanon])
    | cons col rest =>
      rw [hdrop] at hc
      rw [rowCanon, Bool.and_eq_true] at hc
      obtain ⟨hcell, hrest⟩ := hc
      have hget : cols[i]? = some col := by
        have h0 : (cols.drop i)[0]? = cols[i]? := by
          rw [List.getElem?_drop]
          norm_num
        rw [hdrop] at h0
        simpa using h0.symm
      have hrest2 : cols.drop (i + 1) = rest := by
        have : cols.drop (i + 1) = (cols.drop i).drop 1 := by
          rw [List.drop_drop]
        rw [this, hdrop]
        rfl
      obtain ⟨v, hpv, hfv⟩ := cellRoundTrips_elim hcell
      obtain ⟨rs, hr, hmap⟩ := ih (i + 1) (by rw [hrest2]; exact hrest)
      refine ⟨v :: rs, ?_, ?_⟩
      · rw [readRow, hget]
        simp only [Option.some_bind, hpv, hr, Option.bind_eq_bind]
      · simp [hfv, hmap]

theorem mapOpt_readRow_canon {cols : List Column} : ∀ (rows : List (List Str)),
    (∀ line ∈ rows, rowCanon line cols = true) →
    ∃ rs, mapOpt (fun line => readRow cols line 0) rows = some rs
      ∧ rs.map (fun r => r.map formatValue) = rows := by
  intro rows
  induction rows with
  | nil => exact fun _ => ⟨[], rfl, rfl⟩
  | cons line ls ih =>
    intro hall
    obtain ⟨r, hr, hmap⟩ := readRow_canon line 0 (by simpa using hall line (by simp))
    obtain ⟨rs, hrs, hmaps⟩ := ih (fun l hl => hall l (by simp [hl]))
    refine ⟨r :: rs, ?_, ?_⟩
    · rw [mapOpt, hr]
      simp only [Option.some_bind, hrs, Option.bind_eq_bind]
    · simp [hmap, hmaps]

theorem table_roundtrip {t : Table} {fd : FileData} (h : canonicalFile t fd = true) :
    ∃ rs, t.readData fd false = some rs ∧ t.write rs = some fd := by
  cases fd with
  | nil => exact absurd h (by simp [canonicalFile])
  | cons header rows =>
    rw [canonicalFile, Bool.and_eq_true] at h
    obtain ⟨hheader, hall⟩ := h
    rw [List.all_eq_true] at hall
    have hheq : header = t.headers := by simpa using hheader
    obtain ⟨rs', hmapOpt, hback⟩ :=
      mapOpt_readRow_canon rows (fun l hl => by simpa using hall l hl)
    refine ⟨ResultSet.mk t.name t.columns rs', ?_, ?_⟩
    · rw [Table.readData]
      simp only [List.drop_succ_cons, List.drop_zero, hmapOpt, Option.some_bind,
        Bool.false_eq_true, if_false, Option.bind_eq_bind]
    · rw [Table.write]
      rw [if_neg (by intro hcon; exact hcon rfl)]
      rw [if_neg (by intro hcon; exact hcon rfl)]
      rw [hheq, hback]

/-- C4 counterexample: for the table users and a stored row whose str cell
is the quoted text 'John', reading the row file and immediately writing the
result set back succeeds but does not reproduce the stored values: the
write drops the quotes, although no float or datetime is involved, so the
claimed identity (exact preservation of every str value) fails. -/
theorem c4_counterexample :
    ((usersTable.readData quotedNameFile false).bind usersTable.write).isSome = true
    ∧ (usersTable.readData quotedNameFile false).bind usersTable.write ≠ some quotedNameFile := by
  constructor
  · decide
  · decide

/-- C4 (amended): read-then-write is the identity exactly on stored files in
write-canonical form: the header line equals the table's headers and every
cell is reproduced by decode-then-encode. Canonical cells abound: every
str(int) rendering, every %.4f rendering of a four-digit decimal, every
unquoted stripped str, and every ISO-8601 rendering of a valid datetime
round-trips; a general file is instead normalized (floats quantized to four
digits, datetimes to ISO-8601, str cells stripped and dequoted once). -/
theorem c4_roundtrip_canonical :
    (∀ (t : Table) (fd : FileData), canonicalFile t fd = true →
      ∃ rs, t.readData fd false = some rs ∧ t.write rs = some fd)
    ∧ (∀ (nm : Str) (k : Int), cellRoundTrips (Column.mk nm ColumnType.int) (formatInt k) = true)
    ∧ (∀ (nm : Str) (q : Rat), (q * 10000).den = 1 →
        cellRoundTrips (Column.mk nm ColumnType.float) (formatFloat4 q) = true)
    ∧ (∀ (nm s : Str), pystrip s = s → (s = [] ∨ is_quoted_string s = some false) →
        cellRoundTrips (Column.mk nm ColumnType.str) s = true)
    ∧ (∀ (nm : Str) (d : DateTime), validDT d = true →
        cellRoundTrips (Column.mk nm ColumnType.datetime) d.isoformat = true) :=
  ⟨fun _ _ h => table_roundtrip h,
   fun nm k => cellRT_int nm k,
   fun nm _ h => cellRT_float nm h,
   fun nm _ hs hq => cellRT_str nm hs hq,
   fun nm _ h => cellRT_datetime nm h⟩

/-- C4 witness: the canonical demonstration file round-trips identically,
and sample int, float, str and datetime canonical cells round-trip. -/
theorem c4_witness :
    (∃ rs, usersTable.readData usersFile false = some rs ∧ usersTable.write rs = some usersFile)
    ∧ cellRoundTrips (Column.mk ("a".toList) ColumnType.int) (formatInt (-7)) = true
    ∧ cellRoundTrips (Column.mk ("b".toList) ColumnType.float) (formatFloat4 (3 / 2)) = true
    ∧ cellRoundTrips (Column.mk ("c".toList) ColumnType.str) ("ana".toList) = true
    ∧ cellRoundTrips (Column.mk ("d".toList) ColumnType.datetime)
        (DateTime.mk 2020 1 1 0 0 0).isoformat = true :=
  ⟨c4_roundtrip_canonical.1 usersTable usersFile (by decide),
   c4_roundtrip_canonical.2.1 ("a".toList) (-7),
   c4_roundtrip_canonical.2.2.1 ("b".toList) (3 / 2)
     (by rw [show ((3 : Rat) / 2 * 10000) = (15000 : Rat) by norm_num]; rfl),
   c4_roundtrip_canonical.2.2.2.1 ("c".toList) ("ana".toList) (by decide) (Or.inr (by decide)),
   c4_roundtrip_canonical.2.2.2.2 ("d".toList) (DateTime.mk 2020 1 1 0 0 0) (by decide)⟩

/-- C1 counterexample: UPDATE users SET __id = 5 names the synthetic key in
its field list, yet Update.validate accepts it (the `__id` rejection exists
only in Insert.validate), so the claim fails for UPDATE. -/
theorem c1_counterexample :
    idUpdate.fields.contains idColName = true ∧ idUpdate.validate demoDb = some () := by
  constructor
  · decide
  · decide

/-- C1 (amended): every INSERT whose field list contains `__id` fails
validation — the rejection is unconditional, whichever earlier check
fires — while UPDATE performs no such check (see the counterexample). -/
theorem c1_insert_rejects_id (db : Database) (ins : InsertStmt)
    (h : ins.fields.contains idColName = true) : ins.validate db = none := by
  rw [InsertStmt.validate]
  by_cases ha : ins.fields.length = ins.values.length
  · rw [if_pos ha]
    by_cases ht : (db.tables.map Table.name).contains ins.table = true
    · rw [if_pos ht]
      simp only [h, if_true, Option.some_bind, Option.bind_eq_bind, Option.none_bind]
    · rw [if_neg ht]
      rfl
  · rw [if_neg ha]
    rfl

/-- C1 witness: the INSERT naming `__id` is rejected on the demonstration
catalog. -/
theorem c1_witness :
    idInsert.fields.contains idColName = true ∧ idInsert.validate demoDb = none :=
  ⟨by decide, c1_insert_rejects_id demoDb idInsert (by decide)⟩

/-- C2 counterexample: SELECT * FROM users LIMIT 0 run through the calling
surface returns all three stored rows, not zero rows: the surface's
set_default_limit treats the explicit 0 as absent and installs the default
limit 100. -/
theorem c2_counterexample :
    limit0Select.limit = some 0
    ∧ (selectSurface limit0Select demoDb demoFs).map (fun rs => rs.rows.length) = some 3 := by
  constructor
  · rfl
  · decide

/-- C2 (amended): an explicit LIMIT 0 is replaced by the calling surface's
default limit of 100 (so up to 100 rows are returned, not zero); and a
LIMIT exceeding the number of rows left after join, filter, projection and
ordering returns exactly those rows. -/
theorem c2_limit_amended :
    (∀ s : Select, s.limit = some 0 → s.set_default_limit 100 = { s with limit := some 100 })
    ∧ (∀ (s : Select) (db : Database) (fs : FileSys) (rsb : ResultSet) (n : Int),
        s.limit = some n → s.executeBase db fs = some rsb →
        (rsb.rows.length : Int) < n → s.execute db fs = some rsb) := by
  constructor
  · intro s h
    rw [Select.set_default_limit, h]
    simp
  · intro s db fs rsb n hlim hbase hlt
    rw [Select.execute, hbase, Option.map_some', hlim, applyLimit]
    have hn0 : n ≠ 0 := by omega
    rw [if_pos hn0, pyTake, if_pos (by omega : (0 : Int) ≤ n)]
    rw [List.take_of_length_le (by omega : rsb.rows.length ≤ n.toNat)]

/-- C2 witness: the LIMIT 0 select has its limit replaced by 100, and
SELECT * FROM users LIMIT 5 over the three-row table returns all three
rows. -/
theorem c2_witness :
    (limit0Select.set_default_limit 100 = { limit0Select with limit := some 100 })
    ∧ limit5Select.execute demoDb demoFs = some demoAllRows :=
  ⟨c2_limit_amended.1 limit0Select rfl,
   c2_limit_amended.2 limit5Select demoDb demoFs demoAllRows 5 rfl (by decide) (by decide)⟩

theorem pystrip_of_quoted {v : Str} (h : is_quoted_string v = some true) : pystrip v = v := by
  rw [is_quoted_string] at h
  cases hh : v.head? with
  | none => rw [hh] at h; cases hl : v.getLast? <;> rw [hl] at h <;> simp at h
  | some a =>
    cases hl : v.getLast? with
    | none => rw [hh, hl] at h; simp at h
    | some b =>
      rw [hh, hl] at h
      have hb : ((a == dquoteChar && b == dquoteChar) || (a == squoteChar && b == squoteChar))
          = true := by
        injection h with h'
      refine pystrip_eq_self (fun x hx => ?_) (fun y hy => ?_)
      · rw [hx] at hh
        injection hh with hh'
        subst hh'
        rcases Bool.or_eq_true_iff.mp hb with h1 | h1
        · have := (Bool.and_eq_true_iff.mp h1).1
          rw [eq_of_beq this]
          rfl
        · have := (Bool.and_eq_true_iff.mp h1).1
          rw [eq_of_beq this]
          rfl
      · rw [hy] at hl
        injection hl with hl'
        subst hl'
        rcases Bool.or_eq_true_iff.mp hb with h1 | h1
        · have := (Bool.and_eq_true_iff.mp h1).2
          rw [eq_of_beq this]
          rfl
        · have := (Bool.and_eq_true_iff.mp h1).2
          rw [eq_of_beq this]
          rfl

theorem parse_value_isSome_of_typeOK {col : Column} {v : Str}
    (h : valueTypeOK col.type v = true) : (parse_value v col).isSome = true := by
  by_cases hv : v.isEmpty = true
  · rw [parse_value, if_pos hv]
    cases col.type <;> rfl
  · rw [parse_value, if_neg hv]
    cases ht : col.type with
    | int =>
      rw [ht] at h
      simp only [valueTypeOK] at h
      simp only [Option.isSome_map']
      exact h
    | float =>
      rw [ht] at h
      simp only [valueTypeOK] at h
      simp only [Option.isSome_map']
      exact h
    | str =>
      rw [ht] at h
      simp only [valueTypeOK] at h
      have hq : is_quoted_string v = some true := by
        cases hqq : is_quoted_string v with
        | none => rw [hqq] at h; simp at h
        | some b =>
          cases b with
          | false => rw [hqq] at h; simp at h
          | true => rfl
      simp only [Option.isSome_map']
      rw [unquote_string, pystrip_of_quoted hq, hq]
      rfl
    | datetime =>
      rw [ht] at h
      simp only [valueTypeOK] at h
      cases hqq : is_quoted_string v with
      | none => rw [hqq] at h; simp at h
      | some b =>
        cases b with
        | false => rw [hqq] at h; simp at h
        | true =>
          rw [hqq] at h
          simp only [Option.isSome_map']
          exact h

theorem find_name_nodup : ∀ (cols : List Column), (cols.map Column.name).Nodup →
    ∀ {col : Column}, col ∈ cols → cols.find? (fun c => c.name == col.name) = some col := by
  intro cols
  induction cols with
  | nil => intro _ col h; cases h
  | cons c cs ih =>
    intro hnd col hmem
    have hnd2 : c.name ∉ cs.map Column.name ∧ (cs.map Column.name).Nodup := by
      rw [List.map_cons] at hnd
      exact List.nodup_cons.mp hnd
    have hstep : (c :: cs).find? (fun x => x.name == col.name) =
        if (c.name == col.name) = true then some c
        else cs.find? (fun x => x.name == col.name) := by
      rw [List.find?_cons]
      by_cases hc : (c.name == col.name) = true
      · rw [if_pos hc]
        simp only [hc]
      · rw [if_neg hc]
        have hc2 : (c.name == col.name) = false := by
          cases hb : (c.name == col.name) with
          | true => exact absurd hb hc
          | false => rfl
        simp only [hc2]

    rw [hstep]
    by_cases hc : (c.name == col.name) = true
    · rw [if_pos hc]
      have hcol : col = c := by
        rcases List.mem_cons.mp hmem with h1 | h1
        · exact h1
        · exfalso
          apply hnd2.1
          rw [eq_of_beq hc]
          exact List.mem_map_of_mem Column.name h1
      rw [hcol]
    · rw [if_neg hc]
      have hcs : col ∈ cs := by
        rcases List.mem_cons.mp hmem with h1 | h1
        · exfalso; apply hc; rw [h1]; exact beq_self_eq_true _
        · exact h1
      exact ih hnd2.2 hcs

theorem get_column_self {t : Table} (hnd : (t.columns.map Column.name).Nodup)
    {col : Column} (hmem : col ∈ t.columns) : t.get_column col.name = some col :=
  find_name_nodup t.columns hnd hmem

theorem idxOfAux_spec (n : Str) : ∀ (l : List Str) (i j : Nat), idxOfAux n l i = some j →
    ∃ k, j = i + k ∧ k < l.length ∧ l[k]? = some n := by
  intro l
  induction l with
  | nil => intro i j h; simp [idxOfAux] at h
  | cons x xs ih =>
    intro i j h
    rw [idxOfAux] at h
    by_cases hx : (x == n) = true
    · rw [if_pos hx] at h
      injection h with h'
      refine ⟨0, by omega, by simp, ?_⟩
      simp only [List.getElem?_cons_zero]
      rw [eq_of_beq hx]
    · rw [if_neg hx] at h
      obtain ⟨k, hk, hlt, hget⟩ := ih (i + 1) j h
      refine ⟨k + 1, by omega, by simp; omega, by simpa using hget⟩

theorem get_column_index_spec {names : List Str} {n : Str} {j : Nat}
    (h : get_column_index names n = some j) : j < names.length ∧ names[j]? = some n := by
  obtain ⟨k, hk, hlt, hget⟩ := idxOfAux_spec n names 0 j h
  subst hk
  simpa using ⟨hlt, hget⟩

theorem checkFieldValues_get {t : Table} : ∀ (fs vs : List Str),
    checkFieldValues t fs vs = some () →
    ∀ (i : Nat) (f : Str), fs[i]? = some f →
    ∃ v, vs[i]? = some v ∧ ∃ col, t.get_column f = some col ∧ valueTypeOK col.type v = true := by
  intro fs
  induction fs with
  | nil => intro vs _ i f hf; simp at hf
  | cons f0 fs' ih =>
    intro vs hchk i f hf
    cases vs with
    | nil => simp [checkFieldValues] at hchk
    | cons v0 vs' =>
      rw [checkFieldValues] at hchk
      by_cases hh : t.headers.contains f0 = true
      · rw [hh] at hchk
        simp only [if_true, Option.some_bind, Option.bind_eq_bind] at hchk
        cases hcol : t.get_column f0 with
        | none => rw [hcol] at hchk; simp at hchk
        | some col0 =>
          rw [hcol] at hchk
          simp only [Option.some_bind] at hchk
          by_cases hty : valueTypeOK col0.type v0 = true
          · rw [hty] at hchk
            simp only [if_true, Option.some_bind] at hchk
            cases i with
            | zero =>
              simp only [List.getElem?_cons_zero] at hf
              injection hf with hf'
              subst hf'
              exact ⟨v0, by simp, col0, hcol, hty⟩
            | succ j =>
              simp only [List.getElem?_cons_succ] at hf
              obtain ⟨v, hv, col, hc, ht2⟩ := ih vs' hchk j f hf
              exact ⟨v, by simpa using hv, col, hc, ht2⟩
          · have hty2 : valueTypeOK col0.type v0 = false := by
              cases hb : valueTypeOK col0.type v0 with
              | true => exact absurd hb hty
              | false => rfl
            rw [hty2] at hchk
            simp at hchk
      · have hh2 : t.headers.contains f0 = false := by
          cases hb : t.headers.contains f0 with
          | true => exact absurd hb hh
          | false => rfl
        rw [hh2] at hchk
        simp at hchk

theorem createCells_some {t : Table} {values fields : List Str}
    (hnd : (t.columns.map Column.name).Nodup)
    (harity : fields.length = values.length)
    (hchk : checkFieldValues t fields values = some ()) :
    ∀ (cols : List Column), (∀ c ∈ cols, c ∈ t.columns) →
    ∃ r, createCells t values fields cols = some r := by
  intro cols
  induction cols with
  | nil => exact fun _ => ⟨[], rfl⟩
  | cons col rest ih =>
    intro hmem
    obtain ⟨r', hr'⟩ := ih (fun c hc => hmem c (by simp [hc]))
    by_cases hid : (col.name == idColName) = true
    · refine ⟨Value.vInt t.next_id :: r', ?_⟩
      rw [createCells, hid]
      simp only [if_true, Option.some_bind, hr', Option.bind_eq_bind]
    · have hid2 : (col.name == idColName) = false := by
        cases hb : (col.name == idColName) with
        | true => exact absurd hb hid
        | false => rfl
      cases hidx : get_column_index fields col.name with
      | none =>
        refine ⟨Value.vStr [] :: r', ?_⟩
        rw [createCells, hid2]
        simp only [Bool.false_eq_true, if_false, hidx, Option.some_bind, hr',
          Option.bind_eq_bind]
      | some i =>
        obtain ⟨hlt, hget⟩ := get_column_index_spec hidx
        have hvlt : i < values.length := by omega
        cases hv : values[i]? with
        | none =>
          exfalso
          rw [List.getElem?_eq_none_iff] at hv
          omega
        | some v =>
          obtain ⟨v', hv', col', hcol', hty⟩ := checkFieldValues_get fields values hchk i _ hget
          have hveq : v' = v := by
            rw [hv] at hv'
            injection hv' with h0
            exact h0.symm
          subst hveq
          have hcoleq : col' = col := by
            have hself : t.get_column col.name = some col :=
              get_column_self hnd (hmem col (by simp))
            rw [hself] at hcol'
            injection hcol' with h0
            exact h0.symm
          subst hcoleq
          have hps := parse_value_isSome_of_typeOK hty
          cases hpv : parse_value v' col' with
          | none => rw [hpv] at hps; simp at hps
          | some pv =>
            refine ⟨pv :: r', ?_⟩
            rw [createCells, hid2]
            simp only [Bool.false_eq_true, if_false, hidx, Option.some_bind, hv,
              hpv, hr', Option.bind_eq_bind]

theorem mapOpt_length {α β : Type} {f : α → Option β} : ∀ {l : List α} {l' : List β},
    mapOpt f l = some l' → l'.length = l.length := by
  intro l
  induction l with
  | nil => intro l' h; rw [mapOpt] at h; injection h with h'; rw [← h']; rfl
  | cons a as ih =>
    intro l' h
    rw [mapOpt] at h
    cases hf : f a with
    | none => rw [hf] at h; simp at h
    | some b =>
      rw [hf] at h
      simp only [Option.some_bind, Option.bind_eq_bind] at h
      cases hm : mapOpt f as with
      | none => rw [hm] at h; simp at h
      | some bs =>
        rw [hm] at h
        simp only [Option.some_bind] at h
        injection h with h'
        rw [← h']
        simp [ih hm]

/-- C3: a valid INSERT into table t appends exactly one row: create_row
succeeds, the created row's first cell (the `__id` column) carries the
pre-insert next_id, the table's next_id is bumped by one, and the rewritten
row file holds exactly one more data line than before. -/
theorem c3_insert_spec (db : Database) (fs : FileSys) (ins : InsertStmt) (t : Table)
    (fd : FileData) (rs : ResultSet)
    (hv : ins.validate db = some ())
    (ht : db.get_table ins.table = some t)
    (hnd : (t.columns.map Column.name).Nodup)
    (hid : t.columns.head? = some (Column.mk idColName ColumnType.int))
    (hfd : fsLookup fs t.file = some fd)
    (hrd : t.readData fd false = some rs) :
    ∃ (row : Row) (t' : Table),
      t.create_row ins.values ins.fields = some (row, t')
      ∧ row.head? = some (Value.vInt t.next_id)
      ∧ t'.next_id = t.next_id + 1
      ∧ ∃ fd', ins.execute db fs = some (fsWrite fs t.file fd', dbUpdate db t')
        ∧ (fd'.drop 1).length = (fd.drop 1).length + 1 := by
  rw [InsertStmt.validate] at hv
  by_cases ha : ins.fields.length = ins.values.length
  · rw [if_pos ha] at hv
    simp only [Option.some_bind, Option.bind_eq_bind] at hv
    by_cases htb : (db.tables.map Table.name).contains ins.table = true
    · rw [if_pos htb] at hv
      by_cases hidf : ins.fields.contains idColName = true
      · rw [hidf] at hv
        simp at hv
      · have hidf2 : ins.fields.contains idColName = false := by
          cases hb : ins.fields.contains idColName with
          | true => exact absurd hb hidf
          | false => rfl
        rw [hidf2] at hv
        simp only [Bool.false_eq_true, if_false, Option.some_bind] at hv
        rw [ht] at hv
        simp only [Option.some_bind] at hv
        -- hv : checkFieldValues t ins.fields ins.values = some ()
        cases hcl : t.columns with
        | nil => rw [hcl] at hid; simp at hid
        | cons idc rest =>
          rw [hcl] at hid
          simp only [List.head?_cons, Option.some.injEq] at hid
          obtain ⟨r', hr'⟩ := createCells_some hnd ha hv rest
            (fun c hc => by rw [hcl]; exact List.mem_cons_of_mem idc hc)
          have hcreate : createCells t ins.values ins.fields t.columns
              = some (Value.vInt t.next_id :: r') := by
            rw [hcl, createCells]
            have hnm : (idc.name == idColName) = true := by
              rw [hid]
              exact beq_self_eq_true _
            rw [hnm]
            simp only [if_true, Option.some_bind, hr', Option.bind_eq_bind]
          have hcr : t.create_row ins.values ins.fields
              = some (Value.vInt t.next_id :: r', { t with next_id := t.next_id + 1 }) := by
            rw [Table.create_row, hcreate, Option.map_some']
          -- destructure the read result
          rw [Table.readData] at hrd
          cases hmo : mapOpt (fun line => readRow t.columns line 0) (fd.drop 1) with
          | none => rw [hmo] at hrd; simp at hrd
          | some rows0 =>
            rw [hmo] at hrd
            simp only [Bool.false_eq_true, if_false, Option.some_bind,
              Option.some.injEq, Option.bind_eq_bind] at hrd
            refine ⟨Value.vInt t.next_id :: r', { t with next_id := t.next_id + 1 }, hcr,
              rfl, rfl, ?_⟩
            refine ⟨({ t with next_id := t.next_id + 1 } : Table).headers ::
              (rows0 ++ [Value.vInt t.next_id :: r']).map (fun r => r.map formatValue),
              ?_, ?_⟩
            · rw [InsertStmt.execute, ht]
              simp only [Option.some_bind, Option.bind_eq_bind]
              rw [Table.read, hfd]
              simp only [Option.bind_eq_bind, Option.some_bind]
              rw [Table.readData, hmo]
              simp only [Bool.false_eq_true, if_false, Option.bind_eq_bind, Option.some_bind]
              rw [hcr]
              simp only [Option.bind_eq_bind, Option.some_bind]
              rw [Table.write]
              rw [if_neg (by intro hcon; exact hcon rfl)]
              rw [if_neg (by intro hcon; exact hcon rfl)]
              rfl
            · simp only [List.drop_succ_cons, List.drop_zero, List.length_map,
                List.length_append, List.length_cons, List.length_nil]
              rw [mapOpt_length hmo]
    · rw [if_neg htb] at hv
      simp at hv
  · rw [if_neg ha] at hv
    simp at hv

/-- C3 witness: INSERT INTO users (name, age) VALUES ('dee', 25) on the
three-row demonstration table appends one row with `__id` 3 and bumps
next_id to 4. -/
theorem c3_witness :
    ∃ (row : Row) (t' : Table),
      usersTable.create_row demoInsert.values demoInsert.fields = some (row, t')
      ∧ row.head? = some (Value.vInt usersTable.next_id)
      ∧ t'.next_id = usersTable.next_id + 1
      ∧ ∃ fd', demoInsert.execute demoDb demoFs
            = some (fsWrite demoFs usersTable.file fd', dbUpdate demoDb t')
        ∧ (fd'.drop 1).length = (usersFile.drop 1).length + 1 :=
  c3_insert_spec demoDb demoFs demoInsert usersTable usersFile demoAllRows
    (by decide) (by decide) (by decide) (by decide) (by decide) (by decide)

theorem opt_bind_none {α β : Type} (o : Option α) {f : α → Option β}
    (h : ∀ a, f a = none) : o.bind f = none := by
  cases o with
  | none => rfl
  | some a => exact h a

theorem validate_where_eq (lh rh op : Str) (ow aw : Option Where) (db : Database)
    (headers : List Str) (tn : Str) :
    validate_where (Where.mk lh rh op ow aw) db headers tn =
    vwBody lh rh ow aw db headers tn := by
  cases ow <;> cases aw <;> rfl

theorem hasBadNode_eq (db : Database) (headers : List Str) (tn : Str)
    (l r o : Str) (ow aw : Option Where) :
    hasBadNode db headers tn (Where.mk l r o ow aw) =
    hbBody db headers tn l r o ow aw := by
  cases ow <;> cases aw <;> rfl

theorem opt_bind_none_left {α β : Type} {o : Option α} (h : o = none)
    (f : α → Option β) : o.bind f = none := by
  rw [h]; rfl

theorem validate_where_bad : ∀ (w : Where) (db : Database) (headers : List Str)
    (tn : Str), hasBadNode db headers tn w = true →
    validate_where w db headers tn = none
  | Where.mk lh rh op ow aw, db, headers, tn, hbad => by
    rw [hasBadNode_eq] at hbad
    rw [validate_where_eq]
    simp only [hbBody, Bool.or_eq_true] at hbad
    simp only [vwBody]
    rcases hbad with (hroot | haw) | how
    · simp only [badStrLiteralB, Where.left_hand, Where.right_hand,
        Bool.and_eq_true, Bool.not_eq_true'] at hroot
      obtain ⟨⟨⟨hlh, hres⟩, hrh⟩, hq⟩ := hroot
      rw [if_pos hlh]
      cases hr : resolveLeftColumn db tn lh with
      | none => rw [hr] at hres; exact absurd hres (by simp)
      | some c =>
        rw [hr] at hres
        have hct : c.type = ColumnType.str := by simpa using hres
        simp only [resolveLeftColumn, Option.bind_eq_bind] at hr
        cases hsq : splitQualified tn lh with
        | none => rw [hsq] at hr; simp at hr
        | some p =>
          rw [hsq, Option.some_bind] at hr
          cases hgt : db.get_table p.1 with
          | none => rw [hgt] at hr; simp at hr
          | some lt =>
            rw [hgt, Option.some_bind] at hr
            simp only [Option.bind_eq_bind, Option.some_bind, hgt, hr]
            have hnrh : ¬(headers.contains rh = true) := by
              rw [hrh]; exact Bool.false_ne_true
            rw [if_neg hnrh]
            rw [hct]
            cases hiq : is_quoted_string rh with
            | none => rfl
            | some b =>
              cases b with
              | false => rfl
              | true => rw [hiq] at hq; simp at hq
    · cases aw with
      | none => simp at haw
      | some a =>
        have hrec : validate_where a db headers tn = none :=
          validate_where_bad a db headers tn (by exact haw)
        by_cases hl : headers.contains lh = true
        · rw [if_pos hl]
          repeat
            first
            | rfl
            | exact opt_bind_none_left hrec _
            | exact hrec
            | (apply opt_bind_none; intro y)
            | split
        · rw [if_neg hl]
    · cases ow with
      | none => simp at how
      | some o2 =>
        have hrec : validate_where o2 db headers tn = none :=
          validate_where_bad o2 db headers tn (by exact how)
        by_cases hl : headers.contains lh = true
        · rw [if_pos hl]
          repeat
            first
            | rfl
            | exact opt_bind_none_left hrec _
            | exact hrec
            | (apply opt_bind_none; intro y)
            | split
        · rw [if_neg hl]

/-- C5: for the statement kinds whose validation descends into the WHERE
tree (SELECT against its active header set, joined or not; UPDATE), a
comparison whose left side resolves to a str column and whose right side is
an unquoted literal that is not an active header makes validation fail.
(DELETE is the exception recorded separately: its validation never inspects
the right-hand side.) -/
theorem c5_unquoted_str_literal_rejected :
    (∀ (db : Database) (s : Select) (headers : List Str) (w : Where),
       s.activeHeaders db = some headers →
       s.whereClause = some w →
       hasBadNode db headers s.table w = true →
       s.validate db = none) ∧
    (∀ (db : Database) (u : Update) (t : Table) (w : Where),
       db.get_table u.table = some t →
       u.whereClause = some w →
       hasBadNode db t.headers t.name w = true →
       u.validate db = none) := by
  constructor
  · intro db s headers w hah hw hbad
    have hvw : validate_where w db headers s.table = none :=
      validate_where_bad w db headers s.table hbad
    simp only [Select.activeHeaders, Option.bind_eq_bind] at hah
    cases ht : db.get_table s.table with
    | none => rw [ht] at hah; simp at hah
    | some t =>
      rw [ht, Option.some_bind] at hah
      simp only [Select.validate]
      by_cases hc : ((db.tables.map Table.name).contains s.table = true)
      · rw [if_pos hc]
        simp only [Option.bind_eq_bind, ht, Option.some_bind]
        split at hah
        · rename_i jt heq
          by_cases hje : (jt.isEmpty = true)
          · rw [if_pos hje] at hah ⊢
            injection hah with hhd
            subst hhd
            split
            · rename_i w2 heqw
              rw [hw] at heqw
              injection heqw with hww
              subst hww
              exact opt_bind_none_left hvw _
            · rename_i heqw
              rw [hw] at heqw
              exact Option.noConfusion heqw
          · rw [if_neg hje] at hah ⊢
            by_cases hcj : ((db.tables.map Table.name).contains jt = true)
            · rw [if_pos hcj]
              cases hgj : db.get_table jt with
              | none => rw [hgj] at hah; simp at hah
              | some j =>
                rw [hgj, Option.some_bind] at hah
                injection hah with hhd
                subst hhd
                simp only [Option.some_bind]
                split
                · rfl
                · rename_i onW heqo
                  by_cases hl1 : ((t.prefixed_headers ++ j.prefixed_headers).contains
                      onW.left_hand = true)
                  · rw [if_pos hl1]
                    by_cases hl2 : ((t.prefixed_headers ++ j.prefixed_headers).contains
                        onW.right_hand = true)
                    · rw [if_pos hl2]
                      split
                      · rename_i w2 heqw
                        rw [hw] at heqw
                        injection heqw with hww
                        subst hww
                        exact opt_bind_none_left hvw _
                      · rename_i heqw
                        rw [hw] at heqw
                        exact Option.noConfusion heqw
                    · rw [if_neg hl2]
                      rfl
                  · rw [if_neg hl1]
                    rfl
            · rw [if_neg hcj]
              rfl
        · rename_i heq
          injection hah with hhd
          subst hhd
          split
          · rename_i w2 heqw
            rw [hw] at heqw
            injection heqw with hww
            subst hww
            exact opt_bind_none_left hvw _
          · rename_i heqw
            rw [hw] at heqw
            exact Option.noConfusion heqw
      · rw [if_neg hc]
  · intro db u t w ht hw hbad
    have hvw : validate_where w db t.headers t.name = none :=
      validate_where_bad w db t.headers t.name hbad
    simp only [Update.validate]
    simp only [Option.bind_eq_bind, ht, Option.some_bind, hw]
    repeat
      first
      | rfl
      | exact opt_bind_none_left hvw _
      | exact hvw
      | (apply opt_bind_none; intro y)
      | split

/-- C5 witness: SELECT (plain and joined) and UPDATE statements whose WHERE
compares a str column to the unquoted literal bo fail validation. -/
theorem c5_witness :
    unquotedSelect.validate demoDb = none ∧
    joinSelect.validate joinDb = none ∧
    unquotedUpdate.validate demoDb = none := by
  refine ⟨?_, ?_, ?_⟩
  · exact c5_unquoted_str_literal_rejected.1 demoDb unquotedSelect
      usersTable.headers unquotedNameWhere (by decide) (by rfl) (by decide)
  · exact c5_unquoted_str_literal_rejected.1 joinDb joinSelect
      (usersTable.prefixed_headers ++ ordersTable.prefixed_headers) joinBadWhere
      (by decide) (by rfl) (by decide)
  · exact c5_unquoted_str_literal_rejected.2 demoDb unquotedUpdate usersTable
      unquotedNameWhere (by decide) (by rfl) (by decide)

/-- C5 counterexample: the same bad comparison passes DELETE validation,
which checks only the left-hand column name. -/
theorem c5_counterexample :
    hasBadNode demoDb usersTable.headers usersTable.name unquotedNameWhere = true ∧
    unquotedDelete.validate demoDb = some () := by
  constructor <;> decide

theorem lexLtBy_irrefl {α : Type} [DecidableEq α] (lt : α → α → Bool) :
    ∀ l : List α, lexLtBy lt l l = false
  | [] => rfl
  | a :: as => by
    simp only [lexLtBy, if_pos rfl]
    exact lexLtBy_irrefl lt as

theorem lexLtBy_asymm {α : Type} [DecidableEq α] (lt : α → α → Bool)
    (easym : ∀ a b, lt a b = true → lt b a = false) :
    ∀ l1 l2 : List α, lexLtBy lt l1 l2 = true → lexLtBy lt l2 l1 = false
  | l, [], h => by simp [lexLtBy] at h
  | [], _ :: _, _ => rfl
  | a :: as, b :: bs, h => by
    by_cases hab : a = b
    · subst hab
      simp only [lexLtBy, if_pos rfl] at h ⊢
      exact lexLtBy_asymm lt easym as bs h
    · simp only [lexLtBy, if_neg hab] at h
      simp only [lexLtBy, if_neg (fun hba : b = a => hab hba.symm)]
      exact easym a b h

theorem lexLtBy_connex {α : Type} [DecidableEq α] (lt : α → α → Bool)
    (econ : ∀ a b, a ≠ b → lt a b = true ∨ lt b a = true) :
    ∀ l1 l2 : List α, l1 ≠ l2 →
      lexLtBy lt l1 l2 = true ∨ lexLtBy lt l2 l1 = true
  | [], [], h => absurd rfl h
  | [], _ :: _, _ => Or.inl rfl
  | _ :: _, [], _ => Or.inr rfl
  | a :: as, b :: bs, h => by
    by_cases hab : a = b
    · subst hab
      have hne : as ≠ bs := fun he => h (by rw [he])
      simp only [lexLtBy, if_pos rfl]
      exact lexLtBy_connex lt econ as bs hne
    · simp only [lexLtBy, if_neg hab, if_neg (fun hba : b = a => hab hba.symm)]
      exact econ a b hab

theorem lexLtBy_trans {α : Type} [DecidableEq α] (lt : α → α → Bool)
    (eirr : ∀ a, lt a a = false)
    (etr : ∀ a b c, lt a b = true → lt b c = true → lt a c = true) :
    ∀ l1 l2 l3 : List α, lexLtBy lt l1 l2 = true → lexLtBy lt l2 l3 = true →
      lexLtBy lt l1 l3 = true
  | l, [], _, h1, _ => by simp [lexLtBy] at h1
  | _, l, [], _, h2 => by simp [lexLtBy] at h2
  | [], _ :: _, _ :: _, _, _ => rfl
  | a :: as, b :: bs, c :: cs, h1, h2 => by
    by_cases hab : a = b
    · subst hab
      simp only [lexLtBy, if_pos rfl] at h1
      by_cases hbc : a = c
      · subst hbc
        simp only [lexLtBy, if_pos rfl] at h2 ⊢
        exact lexLtBy_trans lt eirr etr as bs cs h1 h2
      · simp only [lexLtBy, if_neg hbc] at h2 ⊢
        exact h2
    · simp only [lexLtBy, if_neg hab] at h1
      by_cases hbc : b = c
      · subst hbc
        simp only [lexLtBy, if_neg hab]
        exact h1
      · simp only [lexLtBy, if_neg hbc] at h2
        have hac : lt a c = true := etr a b c h1 h2
        have hane : a ≠ c := by
          intro he; subst he
          rw [eirr a] at hac; cases hac
        simp only [lexLtBy, if_neg hane]
        exact hac

theorem lexLtBy_negtrans {α : Type} [DecidableEq α] (lt : α → α → Bool)
    (eirr : ∀ a, lt a a = false)
    (easym : ∀ a b, lt a b = true → lt b a = false)
    (etr : ∀ a b c, lt a b = true → lt b c = true → lt a c = true)
    (econ : ∀ a b, a ≠ b → lt a b = true ∨ lt b a = true)
    (l1 l2 l3 : List α) (h1 : lexLtBy lt l1 l2 = false)
    (h2 : lexLtBy lt l2 l3 = false) : lexLtBy lt l1 l3 = false := by
  by_contra hne
  have h13 : lexLtBy lt l1 l3 = true := by
    cases hv : lexLtBy lt l1 l3 with
    | true => rfl
    | false => exact absurd hv hne
  by_cases he12 : l1 = l2
  · subst he12
    rw [h13] at h2; cases h2
  · rcases lexLtBy_connex lt econ l1 l2 he12 with hx | hx
    · rw [hx] at h1; cases h1
    · by_cases he23 : l2 = l3
      · subst he23
        rw [h13] at h1
        simp at h1
      · rcases lexLtBy_connex lt econ l2 l3 he23 with hy | hy
        · rw [hy] at h2; cases h2
        · have h31 : lexLtBy lt l3 l1 = true := lexLtBy_trans lt eirr etr l3 l2 l1 hy hx
          have := lexLtBy_asymm lt easym l3 l1 h31
          rw [h13] at this; cases this

theorem charLt_irrefl (c : Char) : decide (c.toNat < c.toNat) = false := by simp

theorem charLt_asymm (c d : Char) (h : decide (c.toNat < d.toNat) = true) :
    decide (d.toNat < c.toNat) = false := by
  simp at h ⊢; omega

theorem charLt_trans (c d e : Char) (h1 : decide (c.toNat < d.toNat) = true)
    (h2 : decide (d.toNat < e.toNat) = true) :
    decide (c.toNat < e.toNat) = true := by
  simp at h1 h2 ⊢; omega

theorem charLt_connex (c d : Char) (h : c ≠ d) :
    decide (c.toNat < d.toNat) = true ∨ decide (d.toNat < c.toNat) = true := by
  simp only [decide_eq_true_eq]
  rcases Nat.lt_trichotomy c.toNat d.toNat with hlt | heq | hgt
  · exact Or.inl hlt
  · exact absurd (char_toNat_inj heq) h
  · exact Or.inr hgt

theorem natLt_connex (m n : Nat) (h : m ≠ n) :
    decide (m < n) = true ∨ decide (n < m) = true := by
  simp only [decide_eq_true_eq]; omega

theorem strLtB_irrefl (s : Str) : strLtB s s = false := lexLtBy_irrefl _ s

theorem strLtB_asymm (a b : Str) (h : strLtB a b = true) : strLtB b a = false :=
  lexLtBy_asymm _ charLt_asymm a b h

theorem strLtB_negtrans (a b c : Str) (h1 : strLtB a b = false)
    (h2 : strLtB b c = false) : strLtB a c = false :=
  lexLtBy_negtrans _ charLt_irrefl charLt_asymm charLt_trans charLt_connex a b c h1 h2

theorem strLtB_connex (a b : Str) (h : a ≠ b) :
    strLtB a b = true ∨ strLtB b a = true :=
  lexLtBy_connex _ charLt_connex a b h

theorem dtLtB_irrefl (d : DateTime) : dtLtB d d = false := lexLtBy_irrefl _ _

theorem dtLtB_asymm (a b : DateTime) (h : dtLtB a b = true) : dtLtB b a = false :=
  lexLtBy_asymm _ (fun m n hm => by simp at hm ⊢; omega) _ _ h

theorem dtLtB_negtrans (a b c : DateTime) (h1 : dtLtB a b = false)
    (h2 : dtLtB b c = false) : dtLtB a c = false :=
  lexLtBy_negtrans _ (fun m => by simp) (fun m n hm => by simp at hm ⊢; omega)
    (fun m n k hm hn => by simp at hm hn ⊢; omega) natLt_connex _ _ _ h1 h2

theorem dt_fields_inj {a b : DateTime} (h : a.fields = b.fields) : a = b := by
  obtain ⟨y1, m1, d1, h1, mi1, s1⟩ := a
  obtain ⟨y2, m2, d2, h2, mi2, s2⟩ := b
  simp only [DateTime.fields, List.cons.injEq, and_true] at h
  obtain ⟨e1, e2, e3, e4, e5, e6⟩ := h
  subst e1; subst e2; subst e3; subst e4; subst e5; subst e6
  rfl

theorem dtLtB_connex (a b : DateTime) (h : a ≠ b) :
    dtLtB a b = true ∨ dtLtB b a = true :=
  lexLtBy_connex _ natLt_connex _ _ (fun hf => h (dt_fields_inj hf))

theorem valueLt_irrefl (v : Value) : valueLt v v = false := by
  cases v with
  | vInt a => simp [valueLt]
  | vFloat q => simp [valueLt]
  | vStr s => exact strLtB_irrefl s
  | vDatetime d => exact dtLtB_irrefl d

theorem valueLt_asymm (a b : Value) (h : valueLt a b = true) :
    valueLt b a = false := by
  cases a <;> cases b <;> simp only [valueLt] at h ⊢ <;>
    first
    | cases h
    | (simp at h ⊢; omega)
    | (simp at h ⊢; linarith)
    | exact strLtB_asymm _ _ h
    | exact dtLtB_asymm _ _ h
    | rfl

theorem valueLt_negtrans (a b c : Value) (ha : a.tag = b.tag) (hb : b.tag = c.tag)
    (h1 : valueLt a b = false) (h2 : valueLt b c = false) : valueLt a c = false := by
  cases a <;> cases b <;> cases c <;> simp only [Value.tag] at ha hb <;>
    first
    | (simp only [valueLt, decide_eq_false_iff_not] at h1 h2 ⊢; omega)
    | (simp only [valueLt, decide_eq_false_iff_not] at h1 h2 ⊢; linarith)
    | exact strLtB_negtrans _ _ _ h1 h2
    | exact dtLtB_negtrans _ _ _ h1 h2
    | exact ColumnType.noConfusion ha
    | exact ColumnType.noConfusion hb

theorem valueLt_connex (a b : Value) (ht : a.tag = b.tag)
    (h1 : valueLt a b = false) (h2 : valueLt b a = false) : a = b := by
  cases a with
  | vInt x =>
    cases b with
    | vInt y =>
      simp only [valueLt, decide_eq_false_iff_not] at h1 h2
      simp only [Value.vInt.injEq]
      omega
    | vFloat q => simp only [Value.tag] at ht; cases ht
    | vStr s => simp only [Value.tag] at ht; cases ht
    | vDatetime d => simp only [Value.tag] at ht; cases ht
  | vFloat x =>
    cases b with
    | vFloat y =>
      simp only [valueLt, decide_eq_false_iff_not] at h1 h2
      simp only [Value.vFloat.injEq]
      linarith
    | vInt y => simp only [Value.tag] at ht; cases ht
    | vStr s => simp only [Value.tag] at ht; cases ht
    | vDatetime d => simp only [Value.tag] at ht; cases ht
  | vStr x =>
    cases b with
    | vStr y =>
      by_contra hne
      have hxy : x ≠ y := fun he => hne (by rw [he])
      simp only [valueLt] at h1 h2
      rcases strLtB_connex x y hxy with hx | hx
      · rw [hx] at h1; cases h1
      · rw [hx] at h2; cases h2
    | vInt y => simp only [Value.tag] at ht; cases ht
    | vFloat y => simp only [Value.tag] at ht; cases ht
    | vDatetime d => simp only [Value.tag] at ht; cases ht
  | vDatetime x =>
    cases b with
    | vDatetime y =>
      by_contra hne
      have hxy : x ≠ y := fun he => hne (by rw [he])
      simp only [valueLt] at h1 h2
      rcases dtLtB_connex x y hxy with hx | hx
      · rw [hx] at h1; cases h1
      · rw [hx] at h2; cases h2
    | vInt y => simp only [Value.tag] at ht; cases ht
    | vFloat y => simp only [Value.tag] at ht; cases ht
    | vStr s => simp only [Value.tag] at ht; cases ht

theorem insertRowS_mem {α : Type} (lt : α → α → Bool) (x y : α) :
    ∀ L : List α, y ∈ insertRowS lt x L ↔ y = x ∨ y ∈ L
  | [] => by simp [insertRowS]
  | b :: bs => by
    simp only [insertRowS]
    by_cases hlt : lt b x = true
    · rw [if_pos hlt]
      simp only [List.mem_cons, insertRowS_mem lt x y bs]
      tauto
    · rw [if_neg hlt]
      simp only [List.mem_cons]

theorem sortStable_mem {α : Type} (lt : α → α → Bool) (y : α) :
    ∀ L : List α, y ∈ sortStable lt L ↔ y ∈ L
  | [] => Iff.rfl
  | x :: xs => by
    simp only [sortStable, insertRowS_mem lt x y (sortStable lt xs),
      sortStable_mem lt y xs, List.mem_cons]

theorem insertRowS_perm {α : Type} (lt : α → α → Bool) (x : α) :
    ∀ L : List α, (insertRowS lt x L).Perm (x :: L)
  | [] => List.Perm.refl _
  | b :: bs => by
    simp only [insertRowS]
    by_cases hlt : lt b x = true
    · rw [if_pos hlt]
      exact ((insertRowS_perm lt x bs).cons b).trans (List.Perm.swap x b bs)
    · rw [if_neg hlt]

theorem sortStable_perm {α : Type} (lt : α → α → Bool) :
    ∀ L : List α, (sortStable lt L).Perm L
  | [] => List.Perm.refl _
  | x :: xs =>
    (insertRowS_perm lt x (sortStable lt xs)).trans
      ((sortStable_perm lt xs).cons x)

theorem insertRowS_filter_neg {α : Type} (lt : α → α → Bool) (p : α → Bool)
    (x : α) (hpx : p x = false) :
    ∀ L : List α, (insertRowS lt x L).filter p = L.filter p
  | [] => by simp [insertRowS, List.filter_cons, hpx]
  | b :: bs => by
    simp only [insertRowS]
    by_cases hlt : lt b x = true
    · rw [if_pos hlt]
      simp only [List.filter_cons]
      rw [insertRowS_filter_neg lt p x hpx bs]
    · rw [if_neg hlt]
      simp [List.filter_cons, hpx]

theorem insertRowS_filter_pos {α : Type} (lt : α → α → Bool) (p : α → Bool)
    (x : α) (hpx : p x = true) :
    ∀ L : List α, (∀ y ∈ L, p y = true → lt y x = false) →
      (insertRowS lt x L).filter p = x :: L.filter p
  | [], _ => by simp [insertRowS, List.filter_cons, hpx]
  | b :: bs, hbl => by
    simp only [insertRowS]
    by_cases hlt : lt b x = true
    · rw [if_pos hlt]
      have hpb : p b = false := by
        cases hv : p b with
        | false => rfl
        | true =>
          have hc := hbl b (List.mem_cons_self b bs) hv
          rw [hlt] at hc; cases hc
      simp only [List.filter_cons, hpb, Bool.false_eq_true, if_false]
      exact insertRowS_filter_pos lt p x hpx bs
        (fun y hy hpy => hbl y (List.mem_cons_of_mem b hy) hpy)
    · rw [if_neg hlt]
      simp [List.filter_cons, hpx]

theorem sortStable_filter {α : Type} (lt : α → α → Bool) (p : α → Bool) :
    ∀ L : List α,
      (∀ x ∈ L, ∀ y ∈ L, p x = true → p y = true → lt x y = false) →
      (sortStable lt L).filter p = L.filter p
  | [], _ => rfl
  | x :: xs, h => by
    simp only [sortStable]
    by_cases hpx : p x = true
    · have hblock : ∀ y ∈ sortStable lt xs, p y = true → lt y x = false := by
        intro y hy hpy
        exact h y (List.mem_cons_of_mem x ((sortStable_mem lt y xs).mp hy)) x
          (List.mem_cons_self x xs) hpy hpx
      rw [insertRowS_filter_pos lt p x hpx (sortStable lt xs) hblock,
        sortStable_filter lt p xs
          (fun a ha y hy hpa hpy =>
            h a (List.mem_cons_of_mem x ha) y (List.mem_cons_of_mem x hy) hpa hpy)]
      simp [List.filter_cons, hpx]
    · have hpx0 : p x = false := by
        cases hv : p x with
        | false => rfl
        | true => exact absurd hv hpx
      rw [insertRowS_filter_neg lt p x hpx0 (sortStable lt xs),
        sortStable_filter lt p xs
          (fun a ha y hy hpa hpy =>
            h a (List.mem_cons_of_mem x ha) y (List.mem_cons_of_mem x hy) hpa hpy)]
      simp [List.filter_cons, hpx0]

theorem insertRowS_pairwise {α : Type} (lt : α → α → Bool) (x : α) :
    ∀ L : List α,
      (∀ a ∈ x :: L, ∀ b ∈ x :: L, lt a b = true → lt b a = false) →
      (∀ a ∈ x :: L, ∀ b ∈ x :: L, ∀ c ∈ x :: L,
        lt a b = false → lt b c = false → lt a c = false) →
      L.Pairwise (fun a b => lt b a = false) →
      (insertRowS lt x L).Pairwise (fun a b => lt b a = false)
  | [], _, _, _ => by simp [insertRowS]
  | b :: bs, hasym, hnt, hP => by
    simp only [insertRowS]
    rcases List.pairwise_cons.mp hP with ⟨hb, hbs⟩
    have hsub : ∀ a, a ∈ x :: bs → a ∈ x :: b :: bs := by
      intro a ha
      rcases List.mem_cons.mp ha with h1 | h2
      · simp [h1]
      · simp [h2]
    by_cases hlt : lt b x = true
    · rw [if_pos hlt]
      refine List.pairwise_cons.mpr ⟨?_, ?_⟩
      · intro y hy
        rcases (insertRowS_mem lt x y bs).mp hy with hyx | hybs
        · subst hyx
          exact hasym b (by simp) y (by simp) hlt
        · exact hb y hybs
      · exact insertRowS_pairwise lt x bs
          (fun a ha c hc hl => hasym a (hsub a ha) c (hsub c hc) hl)
          (fun a ha c hc d hd h1 h2 =>
            hnt a (hsub a ha) c (hsub c hc) d (hsub d hd) h1 h2)
          hbs
    · have hbx : lt b x = false := by
        cases hv : lt b x with
        | false => rfl
        | true => exact absurd hv hlt
      rw [if_neg hlt]
      refine List.pairwise_cons.mpr ⟨?_, ?_⟩
      · intro y hy
        rcases List.mem_cons.mp hy with hyb | hybs
        · subst hyb; exact hbx
        · exact hnt y (by simp [hybs]) b (by simp) x (by simp) (hb y hybs) hbx
      · exact hP

theorem sortStable_pairwise {α : Type} (lt : α → α → Bool) :
    ∀ L : List α,
      (∀ a ∈ L, ∀ b ∈ L, lt a b = true → lt b a = false) →
      (∀ a ∈ L, ∀ b ∈ L, ∀ c ∈ L, lt a b = false → lt b c = false → lt a c = false) →
      (sortStable lt L).Pairwise (fun a b => lt b a = false)
  | [], _, _ => List.Pairwise.nil
  | x :: xs, hasym, hnt => by
    simp only [sortStable]
    have hmm : ∀ a, a ∈ x :: sortStable lt xs → a ∈ x :: xs := by
      intro a ha
      rcases List.mem_cons.mp ha with h1 | h2
      · simp [h1]
      · simp [(sortStable_mem lt a xs).mp h2]
    have hxs : ∀ a, a ∈ xs → a ∈ x :: xs := fun a ha => List.mem_cons_of_mem x ha
    exact insertRowS_pairwise lt x (sortStable lt xs)
      (fun a ha b hb hl => hasym a (hmm a ha) b (hmm b hb) hl)
      (fun a ha b hb c hc h1 h2 =>
        hnt a (hmm a ha) b (hmm b hb) c (hmm c hc) h1 h2)
      (sortStable_pairwise lt xs
        (fun a ha b hb hl => hasym a (hxs a ha) b (hxs b hb) hl)
        (fun a ha b hb c hc h1 h2 =>
          hnt a (hxs a ha) b (hxs b hb) c (hxs c hc) h1 h2))

theorem sorted_perm_eq {α : Type} (r : α → α → Prop) :
    ∀ (l1 l2 : List α), l1.Perm l2 → l1.Pairwise r → l2.Pairwise r →
      (∀ x ∈ l1, ∀ y ∈ l1, r x y → r y x → x = y) → l1 = l2
  | [], l2, hp, _, _, _ => hp.nil_eq
  | x :: t1, l2, hp, hs1, hs2, hanti => by
    cases l2 with
    | nil =>
      have he := hp.eq_nil
      cases he
    | cons y t2 =>
      have hxy : x = y := by
        by_cases hxy : x = y
        · exact hxy
        · have hx2 : x ∈ y :: t2 := hp.mem_iff.mp (by simp)
          have hy1 : y ∈ x :: t1 := hp.mem_iff.mpr (by simp)
          have hxt2 : x ∈ t2 := by
            rcases List.mem_cons.mp hx2 with h | h
            · exact absurd h hxy
            · exact h
          have hyt1 : y ∈ t1 := by
            rcases List.mem_cons.mp hy1 with h | h
            · exact absurd h.symm hxy
            · exact h
          have hrxy : r x y := (List.pairwise_cons.mp hs1).1 y hyt1
          have hryx : r y x := (List.pairwise_cons.mp hs2).1 x hxt2
          exact hanti x (by simp) y (by simp [hyt1]) hrxy hryx
      subst hxy
      have hp2 : t1.Perm t2 := hp.cons_inv
      have hrec := sorted_perm_eq r t1 t2 hp2 (List.pairwise_cons.mp hs1).2
        (List.pairwise_cons.mp hs2).2
        (fun a ha b hb hr1 hr2 => hanti a (by simp [ha]) b (by simp [hb]) hr1 hr2)
      rw [hrec]

/-- C7: the ORDER BY step is a stable sort in both directions (rows with
equal key keep their original relative order, expressed as filter
preservation per key value), asc is ascending and desc descending for the
natural value order valueLt, and desc produces exactly the reversed key
sequence of asc. The key column is assumed well-typed (one tag). -/
theorem c7_order_by_stable (rows : List Row) (i : Nat) (tg : ColumnType)
    (huni : ∀ r ∈ rows, (rowKey i r).tag = tg) :
    (∀ v : Value,
       (orderRows rows i Direction.asc).filter (fun r => rowKey i r == v) =
       rows.filter (fun r => rowKey i r == v)) ∧
    (∀ v : Value,
       (orderRows rows i Direction.desc).filter (fun r => rowKey i r == v) =
       rows.filter (fun r => rowKey i r == v)) ∧
    (orderRows rows i Direction.asc).Pairwise
      (fun r s => valueLt (rowKey i s) (rowKey i r) = false) ∧
    (orderRows rows i Direction.desc).Pairwise
      (fun r s => valueLt (rowKey i r) (rowKey i s) = false) ∧
    (orderRows rows i Direction.desc).map (rowKey i) =
      ((orderRows rows i Direction.asc).map (rowKey i)).reverse := by
  have hasymA : ∀ a ∈ rows, ∀ b ∈ rows,
      valueLt (rowKey i a) (rowKey i b) = true →
      valueLt (rowKey i b) (rowKey i a) = false :=
    fun a _ b _ h => valueLt_asymm _ _ h
  have hasymD : ∀ a ∈ rows, ∀ b ∈ rows,
      valueLt (rowKey i b) (rowKey i a) = true →
      valueLt (rowKey i a) (rowKey i b) = false :=
    fun a _ b _ h => valueLt_asymm _ _ h
  have hntA : ∀ a ∈ rows, ∀ b ∈ rows, ∀ c ∈ rows,
      valueLt (rowKey i a) (rowKey i b) = false →
      valueLt (rowKey i b) (rowKey i c) = false →
      valueLt (rowKey i a) (rowKey i c) = false :=
    fun a ha b hb c hc h1 h2 =>
      valueLt_negtrans _ _ _ ((huni a ha).trans (huni b hb).symm)
        ((huni b hb).trans (huni c hc).symm) h1 h2
  have hntD : ∀ a ∈ rows, ∀ b ∈ rows, ∀ c ∈ rows,
      valueLt (rowKey i b) (rowKey i a) = false →
      valueLt (rowKey i c) (rowKey i b) = false →
      valueLt (rowKey i c) (rowKey i a) = false :=
    fun a ha b hb c hc h1 h2 =>
      valueLt_negtrans _ _ _ ((huni c hc).trans (huni b hb).symm)
        ((huni b hb).trans (huni a ha).symm) h2 h1
  refine ⟨?_, ?_, ?_, ?_, ?_⟩
  · intro v
    simp only [orderRows]
    apply sortStable_filter
    intro x _ y _ hpx hpy
    rw [eq_of_beq hpx, eq_of_beq hpy]
    exact valueLt_irrefl v
  · intro v
    simp only [orderRows]
    apply sortStable_filter
    intro x _ y _ hpx hpy
    rw [eq_of_beq hpx, eq_of_beq hpy]
    exact valueLt_irrefl v
  · simp only [orderRows]
    exact sortStable_pairwise _ rows hasymA hntA
  · simp only [orderRows]
    exact sortStable_pairwise _ rows hasymD hntD
  · simp only [orderRows]
    apply sorted_perm_eq (fun u v : Value => valueLt u v = false)
    · exact (((sortStable_perm _ rows).map _).trans
        (((sortStable_perm _ rows).map _).symm.trans (List.reverse_perm _).symm))
    · apply List.pairwise_map.mpr
      exact sortStable_pairwise _ rows hasymD hntD
    · apply List.pairwise_reverse.mpr
      apply List.pairwise_map.mpr
      exact sortStable_pairwise _ rows hasymA hntA
    · intro u hu v hv h1 h2
      rcases List.mem_map.mp hu with ⟨rd, hrd, hfu⟩
      rcases List.mem_map.mp hv with ⟨re, hre, hfv⟩
      have htu : u.tag = tg := by
        rw [← hfu]; exact huni rd ((sortStable_mem _ rd rows).mp hrd)
      have htv : v.tag = tg := by
        rw [← hfv]; exact huni re ((sortStable_mem _ re rows).mp hre)
      exact valueLt_connex u v (htu.trans htv.symm) h1 h2

/-- C7 witness: the tie-carrying demonstration rows, keyed on the int
column at index 2, satisfy the hypotheses and hence the sort properties. -/
theorem c7_witness :
    (∀ r ∈ tieRows, (rowKey 2 r).tag = ColumnType.int) ∧
    ((∀ v : Value,
       (orderRows tieRows 2 Direction.asc).filter (fun r => rowKey 2 r == v) =
       tieRows.filter (fun r => rowKey 2 r == v)) ∧
    (∀ v : Value,
       (orderRows tieRows 2 Direction.desc).filter (fun r => rowKey 2 r == v) =
       tieRows.filter (fun r => rowKey 2 r == v)) ∧
    (orderRows tieRows 2 Direction.asc).Pairwise
      (fun r s => valueLt (rowKey 2 s) (rowKey 2 r) = false) ∧
    (orderRows tieRows 2 Direction.desc).Pairwise
      (fun r s => valueLt (rowKey 2 r) (rowKey 2 s) = false) ∧
    (orderRows tieRows 2 Direction.desc).map (rowKey 2) =
      ((orderRows tieRows 2 Direction.asc).map (rowKey 2)).reverse) :=
  ⟨by decide, c7_order_by_stable tieRows 2 ColumnType.int (by decide)⟩

theorem pySplit1Aux_ne_nil (c : Char) (cs : Str) :
    ∀ (f : Nat) (s : Str), pySplit1Aux c cs f s ≠ []
  | 0, _ => by simp [pySplit1Aux]
  | _ + 1, [] => by simp [pySplit1Aux]
  | f + 1, a :: rest => by
    simp only [pySplit1Aux]
    by_cases hp : (c :: cs).isPrefixOf (a :: rest) = true
    · rw [if_pos hp]; simp
    · rw [if_neg hp]
      cases hr : pySplit1Aux c cs f rest with
      | nil => simp
      | cons h t => simp

theorem prefix_decomp {p l : Str} (h : p.isPrefixOf l = true) :
    l = p ++ l.drop p.length := by
  obtain ⟨t, ht⟩ := List.isPrefixOf_iff_prefix.mp h
  rw [← ht, List.drop_left]

theorem isPrefixOf_within {p A L : Str} (h1 : p.isPrefixOf A = true)
    (h2 : A <+: L) : p.isPrefixOf L = true :=
  List.isPrefixOf_iff_prefix.mpr ((List.isPrefixOf_iff_prefix.mp h1).trans h2)

theorem pySplit1Aux_singleton (c : Char) (cs : Str) :
    ∀ (f : Nat) (s B : Str), s.length < f → pySplit1Aux c cs f s = [B] →
      s = B ∧ hasSub (c :: cs) s = false
  | 0, _, _, hf, _ => absurd hf (by omega)
  | _ + 1, [], B, _, h => by
    simp only [pySplit1Aux] at h
    injection h with h1 _
    exact ⟨h1, rfl⟩
  | f + 1, a :: rest, B, hf, h => by
    simp only [pySplit1Aux] at h
    by_cases hp : (c :: cs).isPrefixOf (a :: rest) = true
    · rw [if_pos hp] at h
      injection h with _ h2
      exact absurd h2 (pySplit1Aux_ne_nil c cs f _)
    · rw [if_neg hp] at h
      cases hr : pySplit1Aux c cs f rest with
      | nil => exact absurd hr (pySplit1Aux_ne_nil c cs f rest)
      | cons hh tt =>
        rw [hr] at h
        injection h with h1 h2
        subst h2
        have hlen : rest.length < f := by
          simp only [List.length_cons] at hf; omega
        have hrec := pySplit1Aux_singleton c cs f rest hh hlen hr
        constructor
        · rw [← h1, hrec.1]
        · have e1 : (c :: cs).isPrefixOf (a :: rest) = false := by
            cases hv : (c :: cs).isPrefixOf (a :: rest) with
            | false => rfl
            | true => exact absurd hv hp
          simp only [hasSub, e1, hrec.2, Bool.or_self]
  termination_by f _ _ => f

theorem pySplit1Aux_pair (c : Char) (cs : Str) :
    ∀ (f : Nat) (s A B : Str), s.length < f → pySplit1Aux c cs f s = [A, B] →
      s = A ++ (c :: cs) ++ B ∧ hasSub (c :: cs) A = false ∧
      hasSub (c :: cs) B = false
  | 0, _, _, _, hf, _ => absurd hf (by omega)
  | _ + 1, [], A, B, _, h => by
    simp only [pySplit1Aux] at h
    injection h with _ h2
    exact absurd h2.symm (List.cons_ne_nil _ _)
  | f + 1, a :: rest, A, B, hf, h => by
    simp only [pySplit1Aux] at h
    by_cases hp : (c :: cs).isPrefixOf (a :: rest) = true
    · rw [if_pos hp] at h
      injection h with h1 h2
      have hd : (a :: rest) = (c :: cs) ++ (a :: rest).drop (cs.length + 1) := by
        have hdec := prefix_decomp hp
        simpa using hdec
      have hlen : ((a :: rest).drop (cs.length + 1)).length < f := by
        simp only [List.length_drop, List.length_cons] at *
        omega
      have hrec := pySplit1Aux_singleton c cs f _ B hlen h2
      refine ⟨?_, ?_, ?_⟩
      · rw [← h1, List.nil_append, hd, hrec.1]
      · rw [← h1]; rfl
      · rw [← hrec.1]; exact hrec.2
    · rw [if_neg hp] at h
      cases hr : pySplit1Aux c cs f rest with
      | nil => exact absurd hr (pySplit1Aux_ne_nil c cs f rest)
      | cons hh tt =>
        rw [hr] at h
        injection h with h1 h2
        have hlen : rest.length < f := by
          simp only [List.length_cons] at hf; omega
        have hrec := pySplit1Aux_pair c cs f rest hh B hlen (by rw [hr, h2])
        refine ⟨?_, ?_, ?_⟩
        · rw [← h1]
          simp only [List.cons_append]
          rw [hrec.1]
        · rw [← h1]
          have e1 : (c :: cs).isPrefixOf (a :: hh) = false := by
            cases hv : (c :: cs).isPrefixOf (a :: hh) with
            | false => rfl
            | true =>
              have hpre : (a :: hh) <+: (a :: rest) := by
                refine ⟨(c :: cs) ++ B, ?_⟩
                rw [hrec.1]
                simp [List.append_assoc]
              exact absurd (isPrefixOf_within hv hpre) hp
          simp only [hasSub, e1, hrec.2.1, Bool.or_self]
        · exact hrec.2.2
  termination_by f _ _ _ => f

theorem pySplit_pair (c : Char) (cs q A B : Str)
    (h : pySplit (c :: cs) q = [A, B]) :
    q = A ++ (c :: cs) ++ B ∧ hasSub (c :: cs) A = false ∧
    hasSub (c :: cs) B = false :=
  pySplit1Aux_pair c cs (q.length + 1) q A B (by omega) h

theorem mkCond_some (op : Str) (parts : List Str) (w : Where)
    (h : mkCond op parts = some w) :
    ∃ l r, parts = [l, r] ∧
      w = Where.mk (pystrip l) (pystrip r) op none none := by
  cases parts with
  | nil => simp [mkCond] at h
  | cons l t =>
    cases t with
    | nil => simp [mkCond] at h
    | cons r t2 =>
      cases t2 with
      | cons x t3 => simp [mkCond] at h
      | nil =>
        refine ⟨l, r, rfl, ?_⟩
        simp only [mkCond] at h
        split at h
        · exact Option.noConfusion h
        · split at h
          · exact Option.noConfusion h
          · injection h with hw
            rw [← hw, pystrip_idem, pystrip_idem]

theorem branch_extract (c : Char) (cs : Str) (s : Str) (w : Where)
    (h : mkCond (c :: cs) (pySplit (c :: cs) (pystrip s)) = some w) :
    ∃ A B, pySplit (c :: cs) (pystrip s) = [A, B] ∧
      pystrip s = A ++ (c :: cs) ++ B ∧
      hasSub (c :: cs) A = false ∧ hasSub (c :: cs) B = false ∧
      w = Where.mk (pystrip A) (pystrip B) (c :: cs) none none := by
  obtain ⟨l, r, hp, hw⟩ := mkCond_some (c :: cs) _ w h
  obtain ⟨hq, hA, hB⟩ := pySplit_pair c cs (pystrip s) l r hp
  exact ⟨l, r, hp, hq, hA, hB, hw⟩

/-- C8 (amended): the single-comparison parser tests the operators in the
exact order >=, <=, =, !=, >, < and the first operator present in the
trimmed fragment wins; but the host unpacks str.split into exactly two
parts, so a successful parse means the chosen operator occurs exactly once:
the fragment decomposes as left ++ op ++ right with the operator in neither
side, and both sides are trimmed. A fragment in which the chosen operator
occurs more than once is rejected, not split at the first occurrence. -/
theorem c8_parse_condition_split (s : Str) (w : Where)
    (h : parse_condition s = some w) :
    ∃ op A B,
      opOrder.find? (fun p => hasSub p (pystrip s)) = some op ∧
      pySplit op (pystrip s) = [A, B] ∧
      pystrip s = A ++ op ++ B ∧
      hasSub op A = false ∧ hasSub op B = false ∧
      w = Where.mk (pystrip A) (pystrip B) op none none := by
  simp only [parse_condition] at h
  by_cases h1 : hasSub opGe (pystrip s) = true
  · rw [if_pos h1] at h
    obtain ⟨A, B, hp, hq, hA, hB, hw⟩ := branch_extract '>' ['='] s w h
    exact ⟨opGe, A, B, by simp [opOrder, List.find?, h1], hp, hq, hA, hB, hw⟩
  · rw [if_neg h1] at h
    simp only [Bool.not_eq_true] at h1
    by_cases h2 : hasSub opLe (pystrip s) = true
    · rw [if_pos h2] at h
      obtain ⟨A, B, hp, hq, hA, hB, hw⟩ := branch_extract '<' ['='] s w h
      exact ⟨opLe, A, B, by simp [opOrder, List.find?, h1, h2], hp, hq, hA, hB, hw⟩
    · rw [if_neg h2] at h
      simp only [Bool.not_eq_true] at h2
      by_cases h3 : hasSub opEq (pystrip s) = true
      · rw [if_pos h3] at h
        obtain ⟨A, B, hp, hq, hA, hB, hw⟩ := branch_extract '=' [] s w h
        exact ⟨opEq, A, B, by simp [opOrder, List.find?, h1, h2, h3], hp, hq, hA, hB, hw⟩
      · rw [if_neg h3] at h
        simp only [Bool.not_eq_true] at h3
        by_cases h4 : hasSub opNe (pystrip s) = true
        · rw [if_pos h4] at h
          obtain ⟨A, B, hp, hq, hA, hB, hw⟩ := branch_extract '!' ['='] s w h
          exact ⟨opNe, A, B, by simp [opOrder, List.find?, h1, h2, h3, h4],
            hp, hq, hA, hB, hw⟩
        · rw [if_neg h4] at h
          simp only [Bool.not_eq_true] at h4
          by_cases h5 : hasSub opGt (pystrip s) = true
          · rw [if_pos h5] at h
            obtain ⟨A, B, hp, hq, hA, hB, hw⟩ := branch_extract '>' [] s w h
            exact ⟨opGt, A, B, by simp [opOrder, List.find?, h1, h2, h3, h4, h5],
              hp, hq, hA, hB, hw⟩
          · rw [if_neg h5] at h
            simp only [Bool.not_eq_true] at h5
            by_cases h6 : hasSub opLt (pystrip s) = true
            · rw [if_pos h6] at h
              obtain ⟨A, B, hp, hq, hA, hB, hw⟩ := branch_extract '<' [] s w h
              exact ⟨opLt, A, B,
                by simp [opOrder, List.find?, h1, h2, h3, h4, h5, h6],
                hp, hq, hA, hB, hw⟩
            · rw [if_neg h6] at h
              exact Option.noConfusion h

/-- C8 witness: the fragment age >= 18 parses with the first-listed
operator that occurs, one split and trimmed sides. -/
theorem c8_witness :
    parse_condition (" age >= 18 ".toList) =
      some (Where.mk ("age".toList) ("18".toList) opGe none none) ∧
    (∃ op A B,
      opOrder.find? (fun p => hasSub p (pystrip (" age >= 18 ".toList))) = some op ∧
      pySplit op (pystrip (" age >= 18 ".toList)) = [A, B] ∧
      pystrip (" age >= 18 ".toList) = A ++ op ++ B ∧
      hasSub op A = false ∧ hasSub op B = false ∧
      Where.mk ("age".toList) ("18".toList) opGe none none =
        Where.mk (pystrip A) (pystrip B) op none none) :=
  ⟨rfl, c8_parse_condition_split (" age >= 18 ".toList)
    (Where.mk ("age".toList) ("18".toList) opGe none none) rfl⟩

/-- C8 counterexample: the = operator occurs in a=b=c, yet the parse fails
instead of splitting at the first occurrence. -/
theorem c8_counterexample :
    hasSub opEq (pystrip ("a=b=c".toList)) = true ∧
    parse_condition ("a=b=c".toList) = none :=
  ⟨rfl, rfl⟩

theorem noNeqOp_eq (l r o : Str) (ow aw : Option Where) :
    (Where.mk l r o ow aw).noNeqOp = noNeqBody o ow aw := by
  cases ow <;> cases aw <;> rfl

theorem hasSub_mem (p : Str) : ∀ (s : Str), hasSub p s = true → ∀ x ∈ p, x ∈ s
  | [], h, x, hx => by
    simp only [hasSub] at h
    have hp : p = [] := List.prefix_nil.mp (List.isPrefixOf_iff_prefix.mp h)
    rw [hp] at hx
    exact absurd hx (List.not_mem_nil x)
  | a :: rest, h, x, hx => by
    simp only [hasSub, Bool.or_eq_true] at h
    rcases h with hpre | hrec
    · exact (List.isPrefixOf_iff_prefix.mp hpre).subset hx
    · exact List.mem_cons_of_mem a (hasSub_mem p rest hrec x hx)

theorem hasSub_single (c : Char) : ∀ (s : Str), c ∈ s → hasSub [c] s = true
  | [], h => absurd h (List.not_mem_nil c)
  | a :: rest, h => by
    simp only [hasSub, Bool.or_eq_true]
    rcases List.mem_cons.mp h with h1 | h2
    · left; subst h1; simp [List.isPrefixOf]
    · right; exact hasSub_single c rest h2

theorem hasSub_ne_eq (q : Str) (h : hasSub opNe q = true) :
    hasSub opEq q = true := by
  have hm : ('=' : Char) ∈ q := hasSub_mem opNe q h '=' (by decide)
  exact hasSub_single '=' q hm

theorem parse_condition_shape (s : Str) (w : Where)
    (h : parse_condition s = some w) :
    ∃ l r op, w = Where.mk l r op none none ∧ (op != opNe) = true := by
  simp only [parse_condition] at h
  by_cases h1 : hasSub opGe (pystrip s) = true
  · rw [if_pos h1] at h
    obtain ⟨l, r, _, hw⟩ := mkCond_some _ _ _ h
    exact ⟨_, _, opGe, hw, by decide⟩
  · rw [if_neg h1] at h
    by_cases h2 : hasSub opLe (pystrip s) = true
    · rw [if_pos h2] at h
      obtain ⟨l, r, _, hw⟩ := mkCond_some _ _ _ h
      exact ⟨_, _, opLe, hw, by decide⟩
    · rw [if_neg h2] at h
      by_cases h3 : hasSub opEq (pystrip s) = true
      · rw [if_pos h3] at h
        obtain ⟨l, r, _, hw⟩ := mkCond_some _ _ _ h
        exact ⟨_, _, opEq, hw, by decide⟩
      · rw [if_neg h3] at h
        by_cases h4 : hasSub opNe (pystrip s) = true
        · exact absurd (hasSub_ne_eq _ h4) h3
        · rw [if_neg h4] at h
          by_cases h5 : hasSub opGt (pystrip s) = true
          · rw [if_pos h5] at h
            obtain ⟨l, r, _, hw⟩ := mkCond_some _ _ _ h
            exact ⟨_, _, opGt, hw, by decide⟩
          · rw [if_neg h5] at h
            by_cases h6 : hasSub opLt (pystrip s) = true
            · rw [if_pos h6] at h
              obtain ⟨l, r, _, hw⟩ := mkCond_some _ _ _ h
              exact ⟨_, _, opLt, hw, by decide⟩
            · rw [if_neg h6] at h
              exact Option.noConfusion h

theorem parse_condition_noNeqOp (s : Str) (w : Where)
    (h : parse_condition s = some w) : w.noNeqOp = true := by
  obtain ⟨l, r, op, hw, hop⟩ := parse_condition_shape s w h
  subst hw
  rw [noNeqOp_eq]
  simp [noNeqBody, hop]

/-- C10: the predicate parser never returns a predicate carrying the !=
operator: = is tested before !=, and every fragment containing != also
contains =, so the != branch of the single-comparison parser is
unreachable; this holds across OR/AND composition in parse_where. -/
theorem c10_parse_where_no_neq (s : Str) (w : Where)
    (h : parse_where s = some w) : w.noNeqOp = true := by
  simp only [parse_where] at h
  by_cases hg : countSub kwOr (pyLower (pystrip s)) +
      countSub kwAnd (pyLower (pystrip s)) > 1
  · rw [if_pos hg] at h; exact Option.noConfusion h
  · rw [if_neg hg] at h
    by_cases ho : hasSub kwOr (pyLower (pystrip s)) = true
    · rw [if_pos ho] at h
      split at h
      · exact Option.noConfusion h
      · rename_i i heq
        cases hf : parse_condition ((pystrip s).take i) with
        | none => rw [hf] at h; exact Option.noConfusion h
        | some first =>
          rw [hf] at h
          simp only [Option.bind_eq_bind, Option.some_bind] at h
          cases hs2 : parse_condition ((pystrip s).drop (i + 4)) with
          | none => rw [hs2] at h; exact Option.noConfusion h
          | some second =>
            rw [hs2] at h
            simp only [Option.bind_eq_bind, Option.some_bind] at h
            injection h with hw
            obtain ⟨l, r, op, hfs, hop⟩ := parse_condition_shape _ _ hf
            have hsec := parse_condition_noNeqOp _ _ hs2
            rw [← hw, hfs]
            simp only [Where.setOr]
            rw [noNeqOp_eq]
            simp [noNeqBody, hop, hsec]
    · rw [if_neg ho] at h
      by_cases ha : hasSub kwAnd (pyLower (pystrip s)) = true
      · rw [if_pos ha] at h
        split at h
        · exact Option.noConfusion h
        · rename_i i heq
          cases hf : parse_condition ((pystrip s).take i) with
          | none => rw [hf] at h; exact Option.noConfusion h
          | some first =>
            rw [hf] at h
            simp only [Option.bind_eq_bind, Option.some_bind] at h
            cases hs2 : parse_condition ((pystrip s).drop (i + 5)) with
            | none => rw [hs2] at h; exact Option.noConfusion h
            | some second =>
              rw [hs2] at h
              simp only [Option.bind_eq_bind, Option.some_bind] at h
              injection h with hw
              obtain ⟨l, r, op, hfs, hop⟩ := parse_condition_shape _ _ hf
              have hsec := parse_condition_noNeqOp _ _ hs2
              rw [← hw, hfs]
              simp only [Where.setAnd]
              rw [noNeqOp_eq]
              simp [noNeqBody, hop, hsec]
      · rw [if_neg ha] at h
        exact parse_condition_noNeqOp _ _ h

/-- C10 witness: a fragment written with != parses with operator = (the !
is absorbed into the left operand), and the result carries no !=. -/
theorem c10_witness :
    parse_where ("a != 1".toList) =
      some (Where.mk ("a !".toList) ("1".toList) opEq none none) ∧
    (Where.mk ("a !".toList) ("1".toList) opEq none none).noNeqOp = true :=
  ⟨rfl, c10_parse_where_no_neq ("a != 1".toList)
    (Where.mk ("a !".toList) ("1".toList) opEq none none) rfl⟩

theorem isPySpace_false_of_toNat_large {x : Char} (h : 33 ≤ x.toNat) :
    isPySpace x = false := by
  have hne : ∀ sp : Char, sp.toNat < 33 → (x == sp) = false := by
    intro sp hsp
    refine beq_eq_false_iff_ne.mpr ?_
    intro he
    rw [he] at h
    omega
  simp [isPySpace, hne ' ' (by decide), hne '\t' (by decide), hne '\n' (by decide),
    hne '\r' (by decide), hne '\x0b' (by decide), hne '\x0c' (by decide)]

theorem char_le_toNat {a b : Char} (h : a ≤ b) : a.toNat ≤ b.toNat := by
  exact h

theorem pyLowerChar_not_space {ch : Char} (h : isPySpace ch = false) :
    isPySpace (pyLowerChar ch) = false := by
  by_cases hc : 'A' ≤ ch ∧ ch ≤ 'Z'
  · rw [pyLowerChar, dif_pos hc]
    apply isPySpace_false_of_toNat_large
    have h65 : 65 ≤ ch.toNat := char_le_toNat hc.1
    have h90 : ch.toNat ≤ 90 := char_le_toNat hc.2
    have ht : (Char.ofNatAux (ch.toNat + 32) (Or.inl (by omega))).toNat =
        ch.toNat + 32 := rfl
    omega
  · rw [pyLowerChar, dif_neg hc]
    exact h

theorem identCharOK_elim {ch : Char} (h : identCharOK ch = true) :
    isPySpace ch = false ∧ (ch == '=') = false ∧ (ch == '<') = false ∧
    (ch == '>') = false ∧ (ch == squoteChar) = false ∧
    (ch == dquoteChar) = false := by
  simp only [identCharOK, Bool.and_eq_true, Bool.not_eq_true', bne_iff_ne] at h
  obtain ⟨⟨⟨⟨⟨hs, he⟩, hl⟩, hg⟩, hq1⟩, hq2⟩ := h
  exact ⟨hs, beq_eq_false_iff_ne.mpr he, beq_eq_false_iff_ne.mpr hl,
    beq_eq_false_iff_ne.mpr hg, beq_eq_false_iff_ne.mpr hq1,
    beq_eq_false_iff_ne.mpr hq2⟩

theorem hasSub_false_of_not_mem {x : Char} {p s : Str} (hxp : x ∈ p)
    (hxs : x ∉ s) : hasSub p s = false := by
  cases hv : hasSub p s with
  | false => rfl
  | true => exact absurd (hasSub_mem p s hv x hxp) hxs

theorem space_head_beq_false {a : Char} (ha : isPySpace a = false) :
    ((' ' : Char) == a) = false := by
  refine beq_eq_false_iff_ne.mpr ?_
  intro he
  rw [← he] at ha
  exact absurd ha (by decide)

theorem hasSub_space_pat_append {rest tail : Str} :
    ∀ (A : Str), (∀ x ∈ A, isPySpace x = false) →
      hasSub (' ' :: rest) (A ++ tail) = hasSub (' ' :: rest) tail
  | [], _ => rfl
  | a :: A2, hA => by
    simp only [List.cons_append, hasSub, List.append_eq]
    have hpre : (' ' :: rest).isPrefixOf (a :: (A2 ++ tail)) = false := by
      simp only [List.isPrefixOf]
      rw [space_head_beq_false (hA a (List.mem_cons_self a A2))]
      rfl
    rw [hpre, Bool.false_or]
    exact @hasSub_space_pat_append rest tail A2
      (fun x hx => hA x (List.mem_cons_of_mem a hx))

theorem hasSub_kw_sep_false (c1 : Char) (m2 B : Str)
    (hc1 : (c1 == '=') = false)
    (hsp : (' ' : Char) ∈ c1 :: m2)
    (hB : ∀ x ∈ B, isPySpace x = false) :
    hasSub (' ' :: c1 :: m2) (' ' :: '=' :: ' ' :: B) = false := by
  have hspB : (' ' : Char) ∉ B := fun hmem => absurd (hB ' ' hmem) (by decide)
  have h0 : (' ' :: c1 :: m2).isPrefixOf (' ' :: '=' :: ' ' :: B) = false := by
    simp only [List.isPrefixOf]
    rw [hc1]
    simp
  have h1 : (' ' :: c1 :: m2).isPrefixOf ('=' :: ' ' :: B) = false := by
    simp only [List.isPrefixOf]
    rw [show ((' ' : Char) == '=') = false by decide]
    simp
  have h2 : (' ' :: c1 :: m2).isPrefixOf (' ' :: B) = false := by
    simp only [List.isPrefixOf]
    rw [show ((' ' : Char) == ' ') = true by decide, Bool.true_and]
    cases hv : (c1 :: m2).isPrefixOf B with
    | false => rfl
    | true => exact absurd ((List.isPrefixOf_iff_prefix.mp hv).subset hsp) hspB
  have h3 : hasSub (' ' :: c1 :: m2) B = false :=
    hasSub_false_of_not_mem (List.mem_cons_self _ _) hspB
  simp only [hasSub]
  rw [h0, h1, h2, h3]
  rfl

theorem countSub1Aux_zero (c : Char) (cs : Str) :
    ∀ (f : Nat) (s : Str), hasSub (c :: cs) s = false → countSub1Aux c cs f s = 0
  | 0, _, _ => rfl
  | _ + 1, [], _ => rfl
  | f + 1, a :: rest, h => by
    simp only [hasSub, Bool.or_eq_false_iff] at h
    simp only [countSub1Aux]
    have hcond : ¬((c :: cs).isPrefixOf (a :: rest) = true) := by
      rw [h.1]; exact Bool.false_ne_true
    rw [if_neg hcond]
    exact countSub1Aux_zero c cs f rest h.2

theorem countSub_zero (c : Char) (cs s : Str) (h : hasSub (c :: cs) s = false) :
    countSub (c :: cs) s = 0 :=
  countSub1Aux_zero c cs (s.length + 1) s h

theorem pySplit1Aux_no_occ (c : Char) (cs : Str) :
    ∀ (f : Nat) (s : Str), s.length < f → hasSub (c :: cs) s = false →
      pySplit1Aux c cs f s = [s]
  | 0, _, hf, _ => absurd hf (by omega)
  | _ + 1, [], _, _ => rfl
  | f + 1, a :: rest, hf, h => by
    simp only [hasSub, Bool.or_eq_false_iff] at h
    simp only [pySplit1Aux]
    have hcond : ¬((c :: cs).isPrefixOf (a :: rest) = true) := by
      rw [h.1]; exact Bool.false_ne_true
    rw [if_neg hcond]
    have hrec := pySplit1Aux_no_occ c cs f rest
      (by simp only [List.length_cons] at hf; omega) h.2
    rw [hrec]

theorem pySplit1Aux_single (c : Char) :
    ∀ (f : Nat) (A B : Str), (A ++ c :: B).length < f → c ∉ A →
      hasSub [c] B = false → pySplit1Aux c [] f (A ++ c :: B) = [A, B]
  | 0, _, _, hf, _, _ => absurd hf (by omega)
  | f + 1, [], B, hf, _, hB => by
    simp only [List.nil_append, pySplit1Aux]
    have hcond : ([c].isPrefixOf (c :: B)) = true := by
      simp [List.isPrefixOf]
    rw [if_pos hcond]
    have hlen : B.length < f := by
      simp only [List.nil_append, List.length_cons] at hf; omega
    rw [show (c :: B).drop (List.length ([] : Str) + 1) = B from rfl]
    rw [pySplit1Aux_no_occ c [] f B hlen hB]
  | f + 1, a :: A2, B, hf, hA, hB => by
    simp only [List.cons_append, pySplit1Aux, List.append_eq]
    have hane : (c == a) = false := by
      refine beq_eq_false_iff_ne.mpr ?_
      intro he
      exact hA (by rw [he]; exact List.mem_cons_self a A2)
    have hcond : ¬(([c].isPrefixOf (a :: (A2 ++ c :: B))) = true) := by
      simp only [List.isPrefixOf]
      rw [hane]
      simp
    rw [if_neg hcond]
    have hrec := pySplit1Aux_single c f A2 B
      (by simp only [List.cons_append, List.length_cons] at hf ⊢; omega)
      (fun hm => hA (List.mem_cons_of_mem a hm)) hB
    rw [hrec]
  termination_by f _ _ => f

theorem pySplit_single (c : Char) (A B : Str) (hA : c ∉ A)
    (hB : hasSub [c] B = false) :
    pySplit [c] (A ++ c :: B) = [A, B] :=
  pySplit1Aux_single c ((A ++ c :: B).length + 1) A B (by omega) hA hB

theorem parse_condition_join (t1 t2 c : Str)
    (h1 : identOK t1) (h2 : identOK t2) (hc : identOK c) :
    parse_condition ((t1 ++ '.' :: c) ++ ' ' :: '=' :: ' ' :: (t2 ++ '.' :: c)) =
      some (usingJoinOn t1 t2 c) := by
  obtain ⟨ht1ne, ht1ok⟩ := h1
  obtain ⟨ht2ne, ht2ok⟩ := h2
  obtain ⟨hcne, hcok⟩ := hc
  have hlpns : ∀ x ∈ t1 ++ '.' :: c, isPySpace x = false := by
    intro x hx
    rcases List.mem_append.mp hx with hx1 | hx2
    · exact (identCharOK_elim (ht1ok x hx1)).1
    · rcases List.mem_cons.mp hx2 with hd | hx3
      · rw [hd]; decide
      · exact (identCharOK_elim (hcok x hx3)).1
  have hrpns : ∀ x ∈ t2 ++ '.' :: c, isPySpace x = false := by
    intro x hx
    rcases List.mem_append.mp hx with hx1 | hx2
    · exact (identCharOK_elim (ht2ok x hx1)).1
    · rcases List.mem_cons.mp hx2 with hd | hx3
      · rw [hd]; decide
      · exact (identCharOK_elim (hcok x hx3)).1
  have hSmem : ∀ x, x ∈ (t1 ++ '.' :: c) ++ ' ' :: '=' :: ' ' :: (t2 ++ '.' :: c) →
      x ∈ t1 ∨ x = '.' ∨ x ∈ c ∨ x = ' ' ∨ x = '=' ∨ x ∈ t2 := by
    intro x hx
    simp only [List.mem_append, List.mem_cons] at hx
    tauto
  have hgt : ('>' : Char) ∉ (t1 ++ '.' :: c) ++ ' ' :: '=' :: ' ' :: (t2 ++ '.' :: c) := by
    intro hm
    rcases hSmem '>' hm with h | h | h | h | h | h
    · exact absurd (identCharOK_elim (ht1ok _ h)).2.2.2.1 (by decide)
    · exact absurd h (by decide)
    · exact absurd (identCharOK_elim (hcok _ h)).2.2.2.1 (by decide)
    · exact absurd h (by decide)
    · exact absurd h (by decide)
    · exact absurd (identCharOK_elim (ht2ok _ h)).2.2.2.1 (by decide)
  have hlt : ('<' : Char) ∉ (t1 ++ '.' :: c) ++ ' ' :: '=' :: ' ' :: (t2 ++ '.' :: c) := by
    intro hm
    rcases hSmem '<' hm with h | h | h | h | h | h
    · exact absurd (identCharOK_elim (ht1ok _ h)).2.2.1 (by decide)
    · exact absurd h (by decide)
    · exact absurd (identCharOK_elim (hcok _ h)).2.2.1 (by decide)
    · exact absurd h (by decide)
    · exact absurd h (by decide)
    · exact absurd (identCharOK_elim (ht2ok _ h)).2.2.1 (by decide)
  have hshead : ∀ a,
      ((t1 ++ '.' :: c) ++ ' ' :: '=' :: ' ' :: (t2 ++ '.' :: c)).head? = some a →
      isPySpace a = false := by
    intro a ha
    cases t1 with
    | nil => exact absurd rfl ht1ne
    | cons a1 t1t =>
      simp only [List.cons_append, List.head?_cons, Option.some.injEq] at ha
      rw [← ha]
      exact (identCharOK_elim (ht1ok a1 (List.mem_cons_self a1 t1t))).1
  have hslast : ∀ b,
      ((t1 ++ '.' :: c) ++ ' ' :: '=' :: ' ' :: (t2 ++ '.' :: c)).getLast? = some b →
      isPySpace b = false := by
    intro b hb
    rw [List.getLast?_append_of_ne_nil (t1 ++ '.' :: c) (by simp)] at hb
    rw [show (' ' :: '=' :: ' ' :: (t2 ++ '.' :: c)) =
        [' ', '=', ' '] ++ (t2 ++ '.' :: c) from rfl] at hb
    rw [List.getLast?_append_of_ne_nil ([' ', '=', ' ']) (by simp)] at hb
    rw [show t2 ++ '.' :: c = (t2 ++ ['.']) ++ c from by simp] at hb
    rw [List.getLast?_append_of_ne_nil (t2 ++ ['.']) hcne] at hb
    exact (identCharOK_elim (hcok b (List.mem_of_mem_getLast? hb))).1
  have hstrip : pystrip ((t1 ++ '.' :: c) ++ ' ' :: '=' :: ' ' :: (t2 ++ '.' :: c)) =
      (t1 ++ '.' :: c) ++ ' ' :: '=' :: ' ' :: (t2 ++ '.' :: c) :=
    pystrip_eq_self hshead hslast
  have heqlp : ('=' : Char) ∉ (t1 ++ '.' :: c) ++ [' '] := by
    intro hm
    rcases List.mem_append.mp hm with hx | hx
    · rcases List.mem_append.mp hx with hx1 | hx2
      · exact absurd (identCharOK_elim (ht1ok _ hx1)).2.1 (by decide)
      · rcases List.mem_cons.mp hx2 with hd | hx3
        · exact absurd hd (by decide)
        · exact absurd (identCharOK_elim (hcok _ hx3)).2.1 (by decide)
    · simp at hx
  have heqrp : ('=' : Char) ∉ ' ' :: (t2 ++ '.' :: c) := by
    intro hm
    rcases List.mem_cons.mp hm with hd | hx
    · exact absurd hd (by decide)
    · rcases List.mem_append.mp hx with hx1 | hx2
      · exact absurd (identCharOK_elim (ht2ok _ hx1)).2.1 (by decide)
      · rcases List.mem_cons.mp hx2 with hd | hx3
        · exact absurd hd (by decide)
        · exact absurd (identCharOK_elim (hcok _ hx3)).2.1 (by decide)
  simp only [parse_condition]
  rw [hstrip]
  have hge : ¬(hasSub opGe ((t1 ++ '.' :: c) ++ ' ' :: '=' :: ' ' :: (t2 ++ '.' :: c)) = true) := by
    rw [hasSub_false_of_not_mem (show ('>' : Char) ∈ opGe by decide) hgt]
    exact Bool.false_ne_true
  rw [if_neg hge]
  have hle : ¬(hasSub opLe ((t1 ++ '.' :: c) ++ ' ' :: '=' :: ' ' :: (t2 ++ '.' :: c)) = true) := by
    rw [hasSub_false_of_not_mem (show ('<' : Char) ∈ opLe by decide) hlt]
    exact Bool.false_ne_true
  rw [if_neg hle]
  have heq : hasSub opEq ((t1 ++ '.' :: c) ++ ' ' :: '=' :: ' ' :: (t2 ++ '.' :: c)) = true := by
    apply hasSub_single
    simp
  rw [if_pos heq]
  have hshape : (t1 ++ '.' :: c) ++ ' ' :: '=' :: ' ' :: (t2 ++ '.' :: c) =
      ((t1 ++ '.' :: c) ++ [' ']) ++ '=' :: (' ' :: (t2 ++ '.' :: c)) := by
    simp
  rw [hshape]
  have hsplit : pySplit opEq (((t1 ++ '.' :: c) ++ [' ']) ++ '=' :: (' ' :: (t2 ++ '.' :: c))) =
      [(t1 ++ '.' :: c) ++ [' '], ' ' :: (t2 ++ '.' :: c)] := by
    apply pySplit_single '=' ((t1 ++ '.' :: c) ++ [' ']) (' ' :: (t2 ++ '.' :: c)) heqlp
    exact hasSub_false_of_not_mem (show ('=' : Char) ∈ ['='] by decide) heqrp
  rw [hsplit]
  have hlh : pystrip ((t1 ++ '.' :: c) ++ [' ']) = t1 ++ '.' :: c := by
    rw [pystrip_append_space]
    exact pystrip_eq_self_of_all hlpns
  have hrh : pystrip (' ' :: (t2 ++ '.' :: c)) = t2 ++ '.' :: c := by
    rw [pystrip_cons_space (fun b hb => hrpns b (List.mem_of_mem_getLast? hb))]
    exact pystrip_eq_self_of_all hrpns
  simp only [mkCond]
  rw [hlh, hrh]
  obtain ⟨a2, t2t, ht2e⟩ : ∃ a2 t2t, t2 = a2 :: t2t := by
    cases t2 with
    | nil => exact absurd rfl ht2ne
    | cons a2 t2t => exact ⟨a2, t2t, rfl⟩
  have hhead : (t2 ++ '.' :: c).head? = some a2 := by
    rw [ht2e]; rfl
  have ha2ok := identCharOK_elim
    (ht2ok a2 (by rw [ht2e]; exact List.mem_cons_self a2 t2t))
  have hq1 : ((t2 ++ '.' :: c).head? == some squoteChar) = false := by
    rw [hhead]
    show (a2 == squoteChar) = false
    exact ha2ok.2.2.2.2.1
  have hq2 : ((t2 ++ '.' :: c).head? == some dquoteChar) = false := by
    rw [hhead]
    show (a2 == dquoteChar) = false
    exact ha2ok.2.2.2.2.2
  rw [if_neg (show ¬((((t2 ++ '.' :: c).head? == some squoteChar) &&
      ((t2 ++ '.' :: c).getLast? != some squoteChar)) = true) by
    rw [hq1]; simp)]
  rw [if_neg (show ¬((((t2 ++ '.' :: c).head? == some dquoteChar) &&
      ((t2 ++ '.' :: c).getLast? != some dquoteChar)) = true) by
    rw [hq2]; simp)]
  rw [pystrip_eq_self_of_all hlpns, pystrip_eq_self_of_all hrpns]
  rfl

theorem parse_where_join (t1 t2 c : Str)
    (h1 : identOK t1) (h2 : identOK t2) (hc : identOK c) :
    parse_where ((t1 ++ '.' :: c) ++ ' ' :: '=' :: ' ' :: (t2 ++ '.' :: c)) =
      some (usingJoinOn t1 t2 c) := by
  obtain ⟨ht1ne, ht1ok⟩ := h1
  obtain ⟨ht2ne, ht2ok⟩ := h2
  obtain ⟨hcne, hcok⟩ := hc
  have hlpns : ∀ x ∈ t1 ++ '.' :: c, isPySpace x = false := by
    intro x hx
    rcases List.mem_append.mp hx with hx1 | hx2
    · exact (identCharOK_elim (ht1ok x hx1)).1
    · rcases List.mem_cons.mp hx2 with hd | hx3
      · rw [hd]; decide
      · exact (identCharOK_elim (hcok x hx3)).1
  have hrpns : ∀ x ∈ t2 ++ '.' :: c, isPySpace x = false := by
    intro x hx
    rcases List.mem_append.mp hx with hx1 | hx2
    · exact (identCharOK_elim (ht2ok x hx1)).1
    · rcases List.mem_cons.mp hx2 with hd | hx3
      · rw [hd]; decide
      · exact (identCharOK_elim (hcok x hx3)).1
  have hshead : ∀ a,
      ((t1 ++ '.' :: c) ++ ' ' :: '=' :: ' ' :: (t2 ++ '.' :: c)).head? = some a →
      isPySpace a = false := by
    intro a ha
    cases t1 with
    | nil => exact absurd rfl ht1ne
    | cons a1 t1t =>
      simp only [List.cons_append, List.head?_cons, Option.some.injEq] at ha
      rw [← ha]
      exact (identCharOK_elim (ht1ok a1 (List.mem_cons_self a1 t1t))).1
  have hslast : ∀ b,
      ((t1 ++ '.' :: c) ++ ' ' :: '=' :: ' ' :: (t2 ++ '.' :: c)).getLast? = some b →
      isPySpace b = false := by
    intro b hb
    rw [List.getLast?_append_of_ne_nil (t1 ++ '.' :: c) (by simp)] at hb
    rw [show (' ' :: '=' :: ' ' :: (t2 ++ '.' :: c)) =
        [' ', '=', ' '] ++ (t2 ++ '.' :: c) from rfl] at hb
    rw [List.getLast?_append_of_ne_nil ([' ', '=', ' ']) (by simp)] at hb
    rw [show t2 ++ '.' :: c = (t2 ++ ['.']) ++ c from by simp] at hb
    rw [List.getLast?_append_of_ne_nil (t2 ++ ['.']) hcne] at hb
    exact (identCharOK_elim (hcok b (List.mem_of_mem_getLast? hb))).1
  have hstrip : pystrip ((t1 ++ '.' :: c) ++ ' ' :: '=' :: ' ' :: (t2 ++ '.' :: c)) =
      (t1 ++ '.' :: c) ++ ' ' :: '=' :: ' ' :: (t2 ++ '.' :: c) :=
    pystrip_eq_self hshead hslast
  have hlow : pyLower ((t1 ++ '.' :: c) ++ ' ' :: '=' :: ' ' :: (t2 ++ '.' :: c)) =
      (pyLower (t1 ++ '.' :: c)) ++ ' ' :: '=' :: ' ' :: (pyLower (t2 ++ '.' :: c)) := by
    simp only [pyLower, List.map_append, List.map_cons]
    rfl
  have hlplow : ∀ x ∈ pyLower (t1 ++ '.' :: c), isPySpace x = false := by
    intro x hx
    obtain ⟨y, hy, hxy⟩ := List.mem_map.mp hx
    rw [← hxy]
    exact pyLowerChar_not_space (hlpns y hy)
  have hrplow : ∀ x ∈ pyLower (t2 ++ '.' :: c), isPySpace x = false := by
    intro x hx
    obtain ⟨y, hy, hxy⟩ := List.mem_map.mp hx
    rw [← hxy]
    exact pyLowerChar_not_space (hrpns y hy)
  have hkwor : hasSub kwOr
      (pyLower ((t1 ++ '.' :: c) ++ ' ' :: '=' :: ' ' :: (t2 ++ '.' :: c))) = false := by
    rw [hlow]
    rw [show (kwOr : Str) = ' ' :: 'o' :: ['r', ' '] from rfl]
    rw [hasSub_space_pat_append (pyLower (t1 ++ '.' :: c)) hlplow]
    exact hasSub_kw_sep_false 'o' ['r', ' '] _ (by decide) (by decide) hrplow
  have hkwand : hasSub kwAnd
      (pyLower ((t1 ++ '.' :: c) ++ ' ' :: '=' :: ' ' :: (t2 ++ '.' :: c))) = false := by
    rw [hlow]
    rw [show (kwAnd : Str) = ' ' :: 'a' :: ['n', 'd', ' '] from rfl]
    rw [hasSub_space_pat_append (pyLower (t1 ++ '.' :: c)) hlplow]
    exact hasSub_kw_sep_false 'a' ['n', 'd', ' '] _ (by decide) (by decide) hrplow
  have hcntor : countSub kwOr
      (pyLower ((t1 ++ '.' :: c) ++ ' ' :: '=' :: ' ' :: (t2 ++ '.' :: c))) = 0 :=
    countSub_zero ' ' ('o' :: ['r', ' ']) _ hkwor
  have hcntand : countSub kwAnd
      (pyLower ((t1 ++ '.' :: c) ++ ' ' :: '=' :: ' ' :: (t2 ++ '.' :: c))) = 0 :=
    countSub_zero ' ' ('a' :: ['n', 'd', ' ']) _ hkwand
  simp only [parse_where]
  rw [hstrip]
  rw [if_neg (show ¬(countSub kwOr
      (pyLower ((t1 ++ '.' :: c) ++ ' ' :: '=' :: ' ' :: (t2 ++ '.' :: c))) +
      countSub kwAnd
      (pyLower ((t1 ++ '.' :: c) ++ ' ' :: '=' :: ' ' :: (t2 ++ '.' :: c))) > 1) by
    rw [hcntor, hcntand]; omega)]
  rw [if_neg (show ¬(hasSub kwOr
      (pyLower ((t1 ++ '.' :: c) ++ ' ' :: '=' :: ' ' :: (t2 ++ '.' :: c))) = true) by
    rw [hkwor]; exact Bool.false_ne_true)]
  rw [if_neg (show ¬(hasSub kwAnd
      (pyLower ((t1 ++ '.' :: c) ++ ' ' :: '=' :: ' ' :: (t2 ++ '.' :: c))) = true) by
    rw [hkwand]; exact Bool.false_ne_true)]
  exact parse_condition_join t1 t2 c ⟨ht1ne, ht1ok⟩ ⟨ht2ne, ht2ok⟩ ⟨hcne, hcok⟩

/-- C9: JOIN ... USING (c) desugars to exactly the ON condition t1.c = t2.c:
for plain identifiers the ON text parses to the very Where node parse_select
builds for USING, so a SELECT with either form executes identically. -/
theorem c9_using_on_rows (t1 t2 c : Str)
    (h1 : identOK t1) (h2 : identOK t2) (hc : identOK c) :
    parse_where ((t1 ++ '.' :: c) ++ ' ' :: '=' :: ' ' :: (t2 ++ '.' :: c)) =
      some (usingJoinOn t1 t2 c) ∧
    ∀ (fl : List Str) (tb : Str) (jt : Option Str) (wc : Option Where)
      (ob : Option OrderBy) (lim : Option Int) (db : Database) (fs : FileSys),
      Select.execute
        (Select.mk fl tb jt
          (parse_where ((t1 ++ '.' :: c) ++ ' ' :: '=' :: ' ' :: (t2 ++ '.' :: c)))
          wc ob lim) db fs =
      Select.execute
        (Select.mk fl tb jt (some (usingJoinOn t1 t2 c)) wc ob lim) db fs := by
  have hp := parse_where_join t1 t2 c h1 h2 hc
  refine ⟨hp, ?_⟩
  intro fl tb jt wc ob lim db fs
  rw [hp]

/-- C9 witness: users.id = orders.id parses to the USING desugaring for the
column id, and the two join forms execute identically. -/
theorem c9_witness :
    (parse_where (("users".toList ++ '.' :: "id".toList) ++ ' ' :: '=' :: ' ' ::
        ("orders".toList ++ '.' :: "id".toList)) =
      some (usingJoinOn ("users".toList) ("orders".toList) ("id".toList))) ∧
    ∀ (fl : List Str) (tb : Str) (jt : Option Str) (wc : Option Where)
      (ob : Option OrderBy) (lim : Option Int) (db : Database) (fs : FileSys),
      Select.execute
        (Select.mk fl tb jt
          (parse_where (("users".toList ++ '.' :: "id".toList) ++ ' ' :: '=' :: ' ' ::
            ("orders".toList ++ '.' :: "id".toList)))
          wc ob lim) db fs =
      Select.execute
        (Select.mk fl tb jt
          (some (usingJoinOn ("users".toList) ("orders".toList) ("id".toList)))
          wc ob lim) db fs :=
  c9_using_on_rows ("users".toList) ("orders".toList) ("id".toList)
    ⟨by decide, by decide⟩ ⟨by decide, by decide⟩ ⟨by decide, by decide⟩
